import Mathlib

/-!
Verification of the nimsforest workspace descriptor parser/serializer
(`internal/workspace/parser.go`, `internal/workspace/workspace.go`) and of the
runtime tool resolver and command discovery (`internal/runtimetool/manager.go`).

Go strings are modelled as `List Char` (the inputs of interest are ASCII text).
The Go standard-library string helpers used by the code (`strings.Split`,
`strings.TrimSpace`, `strings.Fields`, `strings.HasPrefix`, `strings.Contains`,
`strings.Join`, `strings.ToLower`) are given direct executable definitions
below.  Filesystem-touching primitives (`os.Stat`, `filepath.Dir`,
`filepath.Join`, `filepath.IsAbs`) are external to the repository and are
abstracted as explicit function parameters where the embedded code needs them.
-/

namespace NimsforestPM

/-- Go strings, modelled as character lists. -/
abbrev GoStr := List Char

/-- Convert a Lean string literal to the `GoStr` model. -/
def gs (s : String) : GoStr := s.toList

/-- `unicode.IsSpace` as used by `strings.TrimSpace` / `strings.Fields`,
restricted to the Latin-1 range (the only characters the repository's data
ever contains): tab, newline, vertical tab, form feed, carriage return,
space, NEL and NBSP. -/
def isGoSpace (c : Char) : Bool :=
  c = ' ' || c = '\t' || c = '\n' || (c = Char.ofNat 11) || (c = Char.ofNat 12) ||
  c = '\r' || (c = Char.ofNat 133) || (c = Char.ofNat 160)

/-- `strings.Split(s, "\n")`: split on every newline; `Split("","\n") = [""]`. -/
def splitNL : GoStr → List GoStr
  | [] => [[]]
  | c :: cs =>
    if c = '\n' then [] :: splitNL cs
    else
      match splitNL cs with
      | [] => [[c]]
      | l :: ls => (c :: l) :: ls

/-- `strings.Join(ls, "\n")`. -/
def joinNL : List GoStr → GoStr
  | [] => []
  | [l] => l
  | l :: ls => l ++ '\n' :: joinNL ls

/-- `strings.TrimSpace`: drop leading and trailing whitespace. -/
def trimSpace (s : GoStr) : GoStr :=
  ((s.dropWhile isGoSpace).reverse.dropWhile isGoSpace).reverse

/-- Helper for `strings.Fields`: `acc` is the current (reversed) word. -/
def fieldsAux : GoStr → GoStr → List GoStr
  | [], acc => if acc = [] then [] else [acc.reverse]
  | c :: cs, acc =>
    if isGoSpace c then
      (if acc = [] then [] else [acc.reverse]) ++ fieldsAux cs []
    else
      fieldsAux cs (c :: acc)

/-- `strings.Fields`: split around runs of whitespace. -/
def fields (s : GoStr) : List GoStr := fieldsAux s []

/-- `strings.ToLower`, restricted to ASCII (all inputs of interest are ASCII). -/
def toLowerStr (s : GoStr) : GoStr := s.map Char.toLower

/-! ## Workspace model (`internal/workspace/workspace.go`) -/

/-- `ToolEntry` from `workspace.go`: one tool installation record. -/
structure ToolEntry where
  name : GoStr
  mode : GoStr
  path : GoStr
  version : GoStr
deriving DecidableEq

/-- `Workspace` from `workspace.go`. -/
structure Workspace where
  version : GoStr
  organization : GoStr
  products : List GoStr
  tools : List ToolEntry
  filePath : GoStr
deriving DecidableEq

/-- `NewWorkspace`: default version `1.0`, empty everything else. -/
def newWorkspace : Workspace :=
  { version := gs "1.0", organization := [], products := [], tools := [], filePath := [] }

/-- `Workspace.AddProduct`: no-op when the exact path is already present,
otherwise append. -/
def addProduct (w : Workspace) (p : GoStr) : Workspace :=
  if p ∈ w.products then w else { w with products := w.products ++ [p] }

/-- The loop body of `Workspace.AddTool`: replace the first entry with the
same name in place, else append at the end. -/
def addToolList : List ToolEntry → ToolEntry → List ToolEntry
  | [], t => [t]
  | e :: es, t => if e.name = t.name then t :: es else e :: addToolList es t

/-- `Workspace.AddTool` (upsert). -/
def addTool (w : Workspace) (t : ToolEntry) : Workspace :=
  { w with tools := addToolList w.tools t }

/-- The loop body of `Workspace.RemoveTool`: drop the first entry with the
given name. -/
def removeToolList : List ToolEntry → GoStr → List ToolEntry
  | [], _ => []
  | e :: es, n => if e.name = n then es else e :: removeToolList es n

/-- `Workspace.RemoveTool`. -/
def removeTool (w : Workspace) (n : GoStr) : Workspace :=
  { w with tools := removeToolList w.tools n }

/-- The loop body of `Workspace.RemoveProduct`: drop the first exact match. -/
def removeProductList : List GoStr → GoStr → List GoStr
  | [], _ => []
  | q :: qs, p => if q = p then qs else q :: removeProductList qs p

/-- `Workspace.RemoveProduct`. -/
def removeProduct (w : Workspace) (p : GoStr) : Workspace :=
  { w with products := removeProductList w.products p }

/-- `Workspace.String`: serialize to `nimsforest.workspace` format, with the
exact newline placement of the Go string builder. -/
def wsString (w : Workspace) : GoStr :=
  gs "nimsforest " ++ w.version ++
  (if w.organization ≠ [] ∨ w.products ≠ [] then ['\n'] else []) ++
  (if w.organization ≠ [] then
      '\n' :: gs "organization " ++ w.organization ++
        (if w.products ≠ [] then ['\n'] else [])
    else []) ++
  (if w.products ≠ [] then
      gs "\nproducts (\n" ++
        (w.products.map (fun p => gs "    " ++ p ++ ['\n'])).flatten ++ [')']
    else []) ++
  (if w.tools ≠ [] then
      (if w.products ≠ [] then ['\n'] else []) ++
      gs "\ntools (\n" ++
        (w.tools.map (fun t =>
          gs "    " ++ t.name ++ [' '] ++ t.mode ++ [' '] ++ t.path ++ [' '] ++
            t.version ++ ['\n'])).flatten ++ [')']
    else [])

/-! ## Parser (`internal/workspace/parser.go`)

Each `fmt.Errorf` site in the parser gets one constructor carrying exactly the
data the Go message interpolates; `atLine n e` models the
`fmt.Errorf("line %d: %w", lineNum+1, err)` wrapping in `ParseWorkspace`. -/

inductive ParseErr where
  /-- workspace content cannot be empty -/
  | emptyContent : ParseErr
  /-- line `n`: wrapped error (1-based `lineNum+1` from the scan loop) -/
  | atLine (n : Nat) (e : ParseErr) : ParseErr
  /-- invalid version line format, expected nimsforest version, got: line -/
  | versionLineFormat (line : GoStr) : ParseErr
  /-- invalid version line, expected nimsforest, got: first field -/
  | versionLineWord (w : GoStr) : ParseErr
  /-- invalid version format, expected format like 1.0, got: second field -/
  | versionFormat (v : GoStr) : ParseErr
  /-- invalid organization line format, got: line -/
  | orgLineFormat (line : GoStr) : ParseErr
  /-- invalid organization line, expected organization, got: first field -/
  | orgLineWord (w : GoStr) : ParseErr
  /-- invalid products section start, got: line -/
  | productsStart (line : GoStr) : ParseErr
  /-- invalid tools section start, got: line -/
  | toolsStart (line : GoStr) : ParseErr
  /-- unexpected line in header section: line -/
  | headerUnexpected (line : GoStr) : ParseErr
  /-- unexpected content after end: line (dead state, never assigned) -/
  | afterEnd (line : GoStr) : ParseErr
  /-- empty product path at line `n` in products section (block-relative) -/
  | emptyProductPath (n : Nat) : ParseErr
  /-- invalid tool line format at line `n` (block-relative), got: line -/
  | toolLineFormat (n : Nat) (line : GoStr) : ParseErr
  /-- invalid tool mode `m` at line `n` (block-relative) -/
  | toolMode (m : GoStr) (n : Nat) : ParseErr
  /-- products section not properly closed -/
  | productsNotClosed : ParseErr
  /-- tools section not properly closed -/
  | toolsNotClosed : ParseErr
deriving DecidableEq

/-- The regular expression `^\d+\.\d+$` from `parseVersionLine`:
one or more digits, a dot, one or more digits. -/
def versionRegexMatch (s : GoStr) : Bool :=
  (s.takeWhile Char.isDigit ≠ []) &&
  (match s.dropWhile Char.isDigit with
   | '.' :: d2 => d2 ≠ [] && d2.all Char.isDigit
   | _ => false)

/-- `parseVersionLine`: expects `nimsforest <version>`. -/
def parseVersionLine (line : GoStr) (ws : Workspace) : Except ParseErr Workspace :=
  match fields line with
  | [a, b] =>
    if a ≠ gs "nimsforest" then .error (.versionLineWord a)
    else if ¬ versionRegexMatch b then .error (.versionFormat b)
    else .ok { ws with version := b }
  | _ => .error (.versionLineFormat line)

/-- `parseOrganizationLine`: expects `organization <path>`. -/
def parseOrganizationLine (line : GoStr) (ws : Workspace) : Except ParseErr Workspace :=
  match fields line with
  | [a, b] =>
    if a ≠ gs "organization" then .error (.orgLineWord a)
    else .ok { ws with organization := b }
  | _ => .error (.orgLineFormat line)

/-- `parseProductsStartLine`: accepts `products (`, `products(`, or
`products` followed by whitespace and `(`. -/
def parseProductsStartLine (line0 : GoStr) : Except ParseErr Unit :=
  let line := trimSpace line0
  if line = gs "products (" ∨ line = gs "products(" then .ok ()
  else if (gs "products").isPrefixOf line ∧ trimSpace (line.drop 8) = ['('] then .ok ()
  else .error (.productsStart line)

/-- `parseToolsStartLine`: accepts `tools (`, `tools(`, or `tools` followed
by whitespace and `(`. -/
def parseToolsStartLine (line0 : GoStr) : Except ParseErr Unit :=
  let line := trimSpace line0
  if line = gs "tools (" ∨ line = gs "tools(" then .ok ()
  else if (gs "tools").isPrefixOf line ∧ trimSpace (line.drop 5) = ['('] then .ok ()
  else .error (.toolsStart line)

/-- `parseProductLines`: `i` is the 0-based index within the collected block
lines (errors report `i+1`). -/
def parseProductLines : Nat → List GoStr → Workspace → Except ParseErr Workspace
  | _, [], ws => .ok ws
  | i, l :: ls, ws =>
    let line := trimSpace l
    if line = [] ∨ (gs "#").isPrefixOf line then parseProductLines (i + 1) ls ws
    else
      let productPath := trimSpace line
      if productPath = [] then .error (.emptyProductPath (i + 1))
      else parseProductLines (i + 1) ls (addProduct ws productPath)

/-- `parseToolLines`: `i` is the 0-based index within the collected block
lines (errors report `i+1`). -/
def parseToolLines : Nat → List GoStr → Workspace → Except ParseErr Workspace
  | _, [], ws => .ok ws
  | i, l :: ls, ws =>
    let line := trimSpace l
    if line = [] ∨ (gs "#").isPrefixOf line then parseToolLines (i + 1) ls ws
    else
      match fields line with
      | [n, m, p, v] =>
        if m ≠ gs "binary" ∧ m ≠ gs "clone" ∧ m ≠ gs "submodule" then
          .error (.toolMode m (i + 1))
        else
          parseToolLines (i + 1) ls
            (addTool ws { name := n, mode := m, path := p, version := v })
      | _ => .error (.toolLineFormat (i + 1) line)

/-- The parser states of `ParseWorkspace`; `end_` is declared in the Go code
but never assigned. -/
inductive PState where
  | start | header | products | tools | end_
deriving DecidableEq

/-- The scan loop of `ParseWorkspace`: `n` is the 0-based line number
(`lineNum`), errors are wrapped with `atLine (n+1)`. Returns the final state,
the workspace (version/organization applied), and the collected product and
tool block lines. -/
def parseLoop : Nat → PState → Workspace → List GoStr → List GoStr → List GoStr →
    Except ParseErr (PState × Workspace × List GoStr × List GoStr)
  | _, st, ws, pls, tls, [] => .ok (st, ws, pls, tls)
  | n, st, ws, pls, tls, raw :: rest =>
    let line := trimSpace raw
    if line = [] ∨ (gs "#").isPrefixOf line then
      parseLoop (n + 1) st ws pls tls rest
    else
      match st with
      | .start =>
        match parseVersionLine line ws with
        | .error e => .error (.atLine (n + 1) e)
        | .ok ws2 => parseLoop (n + 1) .header ws2 pls tls rest
      | .header =>
        if (gs "organization ").isPrefixOf line then
          match parseOrganizationLine line ws with
          | .error e => .error (.atLine (n + 1) e)
          | .ok ws2 => parseLoop (n + 1) .header ws2 pls tls rest
        else if (gs "products ").isPrefixOf line then
          match parseProductsStartLine line with
          | .error e => .error (.atLine (n + 1) e)
          | .ok _ => parseLoop (n + 1) .products ws pls tls rest
        else if (gs "tools ").isPrefixOf line then
          match parseToolsStartLine line with
          | .error e => .error (.atLine (n + 1) e)
          | .ok _ => parseLoop (n + 1) .tools ws pls tls rest
        else .error (.atLine (n + 1) (.headerUnexpected line))
      | .products =>
        if line = [')'] then parseLoop (n + 1) .header ws pls tls rest
        else parseLoop (n + 1) .products ws (pls ++ [line]) tls rest
      | .tools =>
        if line = [')'] then parseLoop (n + 1) .header ws pls tls rest
        else parseLoop (n + 1) .tools ws pls (tls ++ [line]) rest
      | .end_ => .error (.atLine (n + 1) (.afterEnd line))

/-- `ParseWorkspace`: reject empty content, run the scan loop, then apply the
collected product and tool lines, then check for unclosed sections. -/
def parseWorkspace (content : GoStr) : Except ParseErr Workspace :=
  if content = [] then .error .emptyContent
  else
    match parseLoop 0 .start newWorkspace [] [] (splitNL content) with
    | .error e => .error e
    | .ok (st, ws, pls, tls) =>
      match (if pls ≠ [] then parseProductLines 0 pls ws else .ok ws) with
      | .error e => .error e
      | .ok ws1 =>
        match (if tls ≠ [] then parseToolLines 0 tls ws1 else .ok ws1) with
        | .error e => .error e
        | .ok ws2 =>
          if st = .products then .error .productsNotClosed
          else if st = .tools then .error .toolsNotClosed
          else .ok ws2

/-- The line loop of `NormalizeWorkspaceContent`: every input line emits
exactly one output line; `inP`/`inT` track the `inProducts`/`inTools` flags. -/
def normLoop : Bool → Bool → List GoStr → List GoStr
  | _, _, [] => []
  | inP, inT, raw :: rest =>
    let line := trimSpace raw
    if line = [] then [] :: normLoop inP inT rest
    else if (gs "#").isPrefixOf line then raw :: normLoop inP inT rest
    else if (gs "nimsforest ").isPrefixOf line then line :: normLoop inP inT rest
    else if (gs "organization ").isPrefixOf line then line :: normLoop inP inT rest
    else if (gs "products ").isPrefixOf line then gs "products (" :: normLoop true inT rest
    else if (gs "tools ").isPrefixOf line then gs "tools (" :: normLoop inP true rest
    else if line = [')'] ∧ (inP ∨ inT) then [')'] :: normLoop false false rest
    else if inP then (gs "    " ++ line) :: normLoop inP inT rest
    else if inT then (gs "    " ++ line) :: normLoop inP inT rest
    else line :: normLoop inP inT rest

/-- `NormalizeWorkspaceContent`. -/
def normalizeWorkspaceContent (s : GoStr) : GoStr :=
  joinNL (normLoop false false (splitNL s))

/-! ## Workspace validation (`Workspace.Validate` in `workspace.go`)

`filepath.IsAbs`, `filepath.Dir`, `filepath.Join` and the `os.Stat` /
`os.IsNotExist` probe are abstracted as parameters: `statMissing p` stands for
"`os.Stat(p)` failed with a not-exist error". -/

/-- The product loop of `Workspace.Validate`: returns the first failing
product path. -/
def validateProducts (isAbs statMissing : GoStr → Bool) (dirF : GoStr → GoStr)
    (joinF : GoStr → GoStr → GoStr) (fp : GoStr) :
    List GoStr → Except GoStr Unit
  | [] => .ok ()
  | p :: ps =>
    if ¬ isAbs p then
      if fp ≠ [] then
        let productPath := joinF (dirF fp) p
        if statMissing productPath then
          .error (gs "product path does not exist: " ++ productPath)
        else validateProducts isAbs statMissing dirF joinF fp ps
      else validateProducts isAbs statMissing dirF joinF fp ps
    else
      if statMissing p then .error (gs "product path does not exist: " ++ p)
      else validateProducts isAbs statMissing dirF joinF fp ps

/-- `Workspace.Validate`. -/
def validate (isAbs statMissing : GoStr → Bool) (dirF : GoStr → GoStr)
    (joinF : GoStr → GoStr → GoStr) (w : Workspace) : Except GoStr Unit :=
  if w.version = [] then .error (gs "version cannot be empty")
  else
    match
      (if w.organization ≠ [] then
        if ¬ isAbs w.organization then
          if w.filePath ≠ [] then
            let orgPath := joinF (dirF w.filePath) w.organization
            if statMissing orgPath then
              Except.error (gs "organization path does not exist: " ++ orgPath)
            else Except.ok ()
          else Except.ok ()
        else
          if statMissing w.organization then
            Except.error (gs "organization path does not exist: " ++ w.organization)
          else Except.ok ()
      else Except.ok ()) with
    | .error e => .error e
    | .ok _ => validateProducts isAbs statMissing dirF joinF w.filePath w.products

/-! ## Runtime tool (`internal/runtimetool/manager.go`) -/

/-- `RuntimeTool`: a tool entry plus a (possibly nil) owning workspace. -/
structure RuntimeTool where
  entry : ToolEntry
  workspace : Option Workspace

/-- `RuntimeTool.GetExecutablePath`. `dirF`/`joinF` abstract `filepath.Dir` /
`filepath.Join`; `statOk p` stands for "`os.Stat(p)` succeeded". -/
def getExecutablePath (dirF : GoStr → GoStr) (joinF : GoStr → GoStr → GoStr)
    (statOk : GoStr → Bool) (t : RuntimeTool) : Except GoStr GoStr :=
  if t.entry.mode = gs "binary" then .ok t.entry.path
  else if t.entry.mode = gs "clone" ∨ t.entry.mode = gs "submodule" then
    match t.workspace with
    | some w =>
      if w.filePath ≠ [] then
        let workspaceDir := dirF w.filePath
        let toolPath := joinF workspaceDir t.entry.path
        let binaryPath := joinF toolPath t.entry.name
        if statOk binaryPath then .ok binaryPath
        else
          let binPath := joinF (joinF toolPath (gs "bin")) t.entry.name
          if statOk binPath then .ok binPath
          else .ok toolPath
      else .ok t.entry.path
    | none => .ok t.entry.path
  else .error (gs "unsupported tool mode: " ++ t.entry.mode)

/-- `isValidCommandName`: nonempty, only letters, digits, hyphen, underscore. -/
def isValidCommandName (name : GoStr) : Bool :=
  name ≠ [] &&
  name.all (fun c =>
    ('a' ≤ c && c ≤ 'z') || ('A' ≤ c && c ≤ 'Z') || ('0' ≤ c && c ≤ '9') ||
    c = '-' || c = '_')

/-- The line loop of `RuntimeTool.parseCommandsFromHelp`.  Mirrors the Go
control flow: a line containing (case-insensitively) `command` and `:` enters
the commands section and is skipped; inside the section a blank line or a line
without a leading space/tab breaks the loop (note that `line` was already
trimmed at the top of the loop); otherwise the first field is collected when
it is a valid command name. -/
def parseCmdsLoop : Bool → List GoStr → List GoStr
  | _, [] => []
  | inSec, raw :: rest =>
    let line := trimSpace raw
    if (gs "command") <:+: (toLowerStr line) ∧ [':'] <:+: line then
      parseCmdsLoop true rest
    else if inSec then
      if line = [] ∨ (¬ [' '].isPrefixOf line ∧ ¬ ['\t'].isPrefixOf line) then
        []
      else
        match fields line with
        | [] => parseCmdsLoop true rest
        | c :: _ =>
          if isValidCommandName c then c :: parseCmdsLoop true rest
          else parseCmdsLoop true rest
    else parseCmdsLoop false rest

/-- `RuntimeTool.parseCommandsFromHelp`. -/
def parseCommandsFromHelp (output : GoStr) : List GoStr :=
  parseCmdsLoop false (splitNL output)

/-- Decidable equality of `Except` results, to evaluate the embedded
functions at concrete inputs. -/
instance instDecEqExceptResult {ε α : Type} [DecidableEq ε] [DecidableEq α] :
    DecidableEq (Except ε α) := fun x y =>
  match x, y with
  | .ok a, .ok b =>
    if h : a = b then isTrue (by rw [h])
    else isFalse (fun hc => h (Except.ok.inj hc))
  | .error a, .error b =>
    if h : a = b then isTrue (by rw [h])
    else isFalse (fun hc => h (Except.error.inj hc))
  | .ok _, .error _ => isFalse (fun hc => Except.noConfusion hc)
  | .error _, .ok _ => isFalse (fun hc => Except.noConfusion hc)

/-! ## Mutator sequences and well-formedness

`Op` is one call to a §4.2 mutator; `applyOps` runs a sequence starting from
any workspace.  The `good*` predicates say that a mutator argument survives
the serialize/parse cycle textually: the serializer writes product paths and
tool fields verbatim into a line-oriented format, so arguments containing
newlines, surrounding whitespace, comment markers, a bare `)$`, or (for tool
fields) any whitespace at all are not representable. -/

inductive Op where
  | addProductOp (p : GoStr) : Op
  | removeProductOp (p : GoStr) : Op
  | addToolOp (t : ToolEntry) : Op
  | removeToolOp (n : GoStr) : Op

/-- Apply one mutator call. -/
def applyOp (w : Workspace) : Op → Workspace
  | .addProductOp p => addProduct w p
  | .removeProductOp p => removeProduct w p
  | .addToolOp t => addTool w t
  | .removeToolOp n => removeTool w n

/-- Apply a sequence of mutator calls. -/
def applyOps (w : Workspace) (ops : List Op) : Workspace :=
  ops.foldl applyOp w

/-- A product path that the descriptor format can represent on its own line:
already trimmed, nonempty, no newline, not a comment line, not the block
closer. -/
def goodProduct (p : GoStr) : Prop :=
  trimSpace p = p ∧ p ≠ [] ∧ (gs "#").isPrefixOf p = false ∧ p ≠ [')'] ∧ '\n' ∉ p

/-- A tool-entry field: nonempty and free of whitespace (tool lines are
whitespace-separated 4-field lines). -/
def goodField (f : GoStr) : Prop :=
  f ≠ [] ∧ ∀ c ∈ f, isGoSpace c = false

/-- A tool entry that the descriptor format can represent: whitespace-free
nonempty fields, a valid mode, and a name that does not open a comment. -/
def goodTool (t : ToolEntry) : Prop :=
  goodField t.name ∧ goodField t.mode ∧ goodField t.path ∧ goodField t.version ∧
  (t.mode = gs "binary" ∨ t.mode = gs "clone" ∨ t.mode = gs "submodule") ∧
  t.name.head? ≠ some '#'

/-- Well-formedness of one mutator call (removals are unrestricted). -/
def opWF : Op → Prop
  | .addProductOp p => goodProduct p
  | .removeProductOp _ => True
  | .addToolOp t => goodTool t
  | .removeToolOp _ => True

/-- The serialized (and trimmed) text of one tool line. -/
def toolLine (t : ToolEntry) : GoStr :=
  t.name ++ ' ' :: t.mode ++ ' ' :: t.path ++ ' ' :: t.version

instance decGoodProduct (p : GoStr) : Decidable (goodProduct p) :=
  inferInstanceAs (Decidable (trimSpace p = p ∧ p ≠ [] ∧
    (gs "#").isPrefixOf p = false ∧ p ≠ [')'] ∧ '\n' ∉ p))

instance decGoodField (f : GoStr) : Decidable (goodField f) :=
  inferInstanceAs (Decidable (f ≠ [] ∧ ∀ c ∈ f, isGoSpace c = false))

instance decGoodTool (t : ToolEntry) : Decidable (goodTool t) :=
  inferInstanceAs (Decidable (goodField t.name ∧ goodField t.mode ∧
    goodField t.path ∧ goodField t.version ∧
    (t.mode = gs "binary" ∨ t.mode = gs "clone" ∨ t.mode = gs "submodule") ∧
    t.name.head? ≠ some '#'))

instance decOpWF : (op : Op) → Decidable (opWF op)
  | .addProductOp p => inferInstanceAs (Decidable (goodProduct p))
  | .removeProductOp _ => inferInstanceAs (Decidable True)
  | .addToolOp t => inferInstanceAs (Decidable (goodTool t))
  | .removeToolOp _ => inferInstanceAs (Decidable True)

/-- Everything `applyOps` and `parseWorkspace` maintain about workspaces built
from `newWorkspace` by well-formed mutator calls. -/
def reachWF (w : Workspace) : Prop :=
  w.version = gs "1.0" ∧ w.organization = [] ∧ w.filePath = [] ∧
  (∀ p ∈ w.products, goodProduct p) ∧ w.products.Nodup ∧
  (∀ t ∈ w.tools, goodTool t) ∧ (w.tools.map ToolEntry.name).Nodup

/-- The uniqueness invariant of the data model: pairwise-distinct product
strings and pairwise-distinct tool names. -/
def wsInv (w : Workspace) : Prop :=
  w.products.Nodup ∧ (w.tools.map ToolEntry.name).Nodup

/-- Workspaces reachable from `NewWorkspace` by mutator calls and by parsing
arbitrary content. -/
inductive Reach : Workspace → Prop where
  | base : Reach newWorkspace
  | step {w : Workspace} (op : Op) : Reach w → Reach (applyOp w op)
  | parsed {c : GoStr} {w : Workspace} : parseWorkspace c = .ok w → Reach w

/-! ## Basic string lemmas -/

theorem dropWhile_eq_self_of_head (p : Char → Bool) (s : GoStr)
    (h : ∀ c, s.head? = some c → p c = false) : s.dropWhile p = s := by
  cases s with
  | nil => rfl
  | cons c cs => rw [List.dropWhile_cons, h c rfl]; simp

theorem trimSpace_eq_self (s : GoStr)
    (h1 : ∀ c, s.head? = some c → isGoSpace c = false)
    (h2 : ∀ c, s.getLast? = some c → isGoSpace c = false) : trimSpace s = s := by
  unfold trimSpace
  rw [dropWhile_eq_self_of_head _ _ h1, dropWhile_eq_self_of_head, List.reverse_reverse]
  intro c hc
  rw [List.head?_reverse] at hc
  exact h2 c hc

/-- Prepending the serializer's 4-space indent does not change the trimmed
line. -/
theorem trimSpace_indent (p : GoStr) : trimSpace (gs "    " ++ p) = trimSpace p := rfl

/-! ## C8: mode-based resolution -/

/-- C8: `GetExecutablePath` returns the entry's path unchanged with no error
when the mode is `binary`, and errors on every mode outside
`{binary, clone, submodule}`, for every entry, owning descriptor, and
filesystem. -/
theorem c8_mode_resolution (dirF : GoStr → GoStr) (joinF : GoStr → GoStr → GoStr)
    (statOk : GoStr → Bool) (t : RuntimeTool) :
    (t.entry.mode = gs "binary" →
      getExecutablePath dirF joinF statOk t = .ok t.entry.path) ∧
    (t.entry.mode ≠ gs "binary" → t.entry.mode ≠ gs "clone" →
      t.entry.mode ≠ gs "submodule" →
      getExecutablePath dirF joinF statOk t =
        .error (gs "unsupported tool mode: " ++ t.entry.mode)) := by
  constructor
  · intro h
    simp [getExecutablePath, h]
  · intro h1 h2 h3
    simp [getExecutablePath, h1, h2, h3]

/-- Witness for C8 at a concrete binary entry and a concrete unknown mode. -/
theorem c8_mode_resolution_witness :
    (getExecutablePath id (fun a _ => a) (fun _ => true)
      { entry := { name := gs "t", mode := gs "binary", path := gs "/usr/bin/echo",
                   version := gs "v" }, workspace := none } = .ok (gs "/usr/bin/echo")) ∧
    (getExecutablePath id (fun a _ => a) (fun _ => true)
      { entry := { name := gs "t", mode := gs "weird", path := gs "p",
                   version := gs "v" }, workspace := none } =
      .error (gs "unsupported tool mode: " ++ gs "weird")) :=
  ⟨(c8_mode_resolution id (fun a _ => a) (fun _ => true) _).1 rfl,
   (c8_mode_resolution id (fun a _ => a) (fun _ => true) _).2
     (by decide) (by decide) (by decide)⟩

/-! ## C7: Validate's soft behavior with empty sourcePath -/

theorem validateProducts_ok_of_relative (isAbs statMissing : GoStr → Bool)
    (dirF : GoStr → GoStr) (joinF : GoStr → GoStr → GoStr) (ps : List GoStr)
    (h : ∀ p ∈ ps, isAbs p = false) :
    validateProducts isAbs statMissing dirF joinF [] ps = .ok () := by
  induction ps with
  | nil => rfl
  | cons p ps ih =>
    have hp : isAbs p = false := h p (List.mem_cons_self p ps)
    simp only [validateProducts, hp, Bool.false_eq_true, not_false_eq_true, if_true,
      ne_eq, not_true_eq_false, if_false, reduceIte]
    exact ih fun q hq => h q (List.mem_cons_of_mem p hq)

/-- C7: with a nonempty version, empty `FilePath`, and all of organization and
product paths relative, `Validate` succeeds regardless of the filesystem: the
existence checks are skipped because there is no directory to resolve
against. -/
theorem c7_validate_soft (isAbs statMissing : GoStr → Bool) (dirF : GoStr → GoStr)
    (joinF : GoStr → GoStr → GoStr) (w : Workspace)
    (hver : w.version ≠ [])
    (hfp : w.filePath = [])
    (horg : w.organization ≠ [] → isAbs w.organization = false)
    (hprod : ∀ p ∈ w.products, isAbs p = false) :
    validate isAbs statMissing dirF joinF w = .ok () := by
  unfold validate
  rw [if_neg hver]
  have horgok : (if w.organization ≠ [] then
      (if ¬ isAbs w.organization then
        (if w.filePath ≠ [] then
          (if statMissing (joinF (dirF w.filePath) w.organization) then
            Except.error (gs "organization path does not exist: " ++
              joinF (dirF w.filePath) w.organization)
          else Except.ok ())
        else Except.ok ())
      else
        (if statMissing w.organization then
          Except.error (gs "organization path does not exist: " ++ w.organization)
        else Except.ok ()))
    else Except.ok ()) = Except.ok () := by
    by_cases ho : w.organization = []
    · simp [ho]
    · simp [ho, horg ho, hfp]
  rw [horgok, hfp]
  exact validateProducts_ok_of_relative _ _ _ _ _ hprod

/-- Witness for C7: a workspace with a relative organization and product path
and empty file path validates even when every stat probe reports missing. -/
theorem c7_validate_soft_witness :
    validate (fun s => decide (s.head? = some '/')) (fun _ => true) id (fun a _ => a)
      { version := gs "1.0", organization := gs "./org",
        products := [gs "./a", gs "./b"], tools := [], filePath := [] } = .ok () :=
  c7_validate_soft _ _ _ _ _ (by decide) rfl (fun _ => by decide) (by decide)

/-! ## C5: AddTool upsert semantics -/

theorem addToolList_of_not_mem (ts : List ToolEntry) (t : ToolEntry)
    (h : ∀ e ∈ ts, e.name ≠ t.name) : addToolList ts t = ts ++ [t] := by
  induction ts with
  | nil => rfl
  | cons e es ih =>
    rw [addToolList, if_neg (h e (List.mem_cons_self e es)), List.cons_append]
    rw [ih fun x hx => h x (List.mem_cons_of_mem e hx)]

theorem addToolList_replace_first (l1 l2 : List ToolEntry) (e t : ToolEntry)
    (he : e.name = t.name) (h1 : ∀ x ∈ l1, x.name ≠ t.name) :
    addToolList (l1 ++ e :: l2) t = l1 ++ t :: l2 := by
  induction l1 with
  | nil => simp [addToolList, he]
  | cons x xs ih =>
    rw [List.cons_append, addToolList, if_neg (h1 x (List.mem_cons_self x xs)),
      List.cons_append, ih fun y hy => h1 y (List.mem_cons_of_mem x hy)]

theorem first_occurrence_split (P : ToolEntry → Prop) [DecidablePred P]
    (l : List ToolEntry) (h : ∃ x ∈ l, P x) :
    ∃ l1 x l2, l = l1 ++ x :: l2 ∧ P x ∧ ∀ y ∈ l1, ¬ P y := by
  induction l with
  | nil => obtain ⟨x, hx, _⟩ := h; exact absurd hx (List.not_mem_nil x)
  | cons a as ih =>
    by_cases ha : P a
    · exact ⟨[], a, as, rfl, ha, by simp⟩
    · have : ∃ x ∈ as, P x := by
        obtain ⟨x, hx, hPx⟩ := h
        rcases List.mem_cons.mp hx with rfl | hx2
        · exact absurd hPx ha
        · exact ⟨x, hx2, hPx⟩
      obtain ⟨l1, x, l2, heq, hPx, hnone⟩ := ih this
      refine ⟨a :: l1, x, l2, by rw [heq, List.cons_append], hPx, ?_⟩
      intro y hy
      rcases List.mem_cons.mp hy with rfl | hy2
      · exact ha
      · exact hnone y hy2

/-- C5 (amended): for every workspace whose tools hold at most one entry with
the shared name — the data-model invariant — calling `AddTool e1` then
`AddTool e2` leaves exactly one entry with that name, holding `e2`'s fields:
at the position of the first prior entry with that name when one exists
(replacement preserves position), appended at the end otherwise. -/
theorem c5_upsert (w : Workspace) (e1 e2 : ToolEntry) (hname : e1.name = e2.name)
    (huniq : w.tools.countP (fun t => t.name == e1.name) ≤ 1) :
    ((addTool (addTool w e1) e2).tools.countP (fun t => t.name == e2.name) = 1) ∧
    ((∀ e ∈ w.tools, e.name ≠ e1.name) →
      (addTool (addTool w e1) e2).tools = w.tools ++ [e2]) ∧
    (∀ l1 e l2, w.tools = l1 ++ e :: l2 → e.name = e1.name →
      (∀ x ∈ l1, x.name ≠ e1.name) →
      (addTool (addTool w e1) e2).tools = l1 ++ e2 :: l2) := by
  refine ⟨?_, ?_, ?_⟩
  · -- exactly one entry with the name remains
    by_cases hex : ∃ e ∈ w.tools, e.name = e1.name
    · obtain ⟨l1, e, l2, heq, hPe, hnone⟩ :=
        first_occurrence_split (fun x => x.name = e1.name) w.tools hex
      have step : (addTool (addTool w e1) e2).tools = l1 ++ e2 :: l2 := by
        show addToolList (addToolList w.tools e1) e2 = l1 ++ e2 :: l2
        rw [heq, addToolList_replace_first l1 l2 e e1 hPe hnone,
          addToolList_replace_first l1 l2 e1 e2 hname]
        intro x hx
        rw [← hname]
        exact hnone x hx
      rw [step]
      have hc : w.tools.countP (fun t => t.name == e1.name) =
          l1.countP (fun t => t.name == e1.name) + 1 +
          l2.countP (fun t => t.name == e1.name) := by
        rw [heq, List.countP_append, List.countP_cons]
        simp [hPe]
        omega
      have hcount1 : l1.countP (fun t => t.name == e1.name) = 0 := by omega
      have hcount0 : l2.countP (fun t => t.name == e1.name) = 0 := by omega
      simp only [hname] at hcount0 hcount1
      rw [List.countP_append, List.countP_cons]
      simp [hcount0, hcount1]
    · push_neg at hex
      have step : (addTool (addTool w e1) e2).tools = w.tools ++ [e2] := by
        show addToolList (addToolList w.tools e1) e2 = w.tools ++ [e2]
        rw [addToolList_of_not_mem w.tools e1 hex,
          addToolList_replace_first w.tools [] e1 e2 hname]
        intro x hx
        rw [← hname]
        exact hex x hx
      rw [step, List.countP_append, List.countP_cons]
      have hcount : w.tools.countP (fun t => t.name == e2.name) = 0 := by
        rw [List.countP_eq_zero]
        intro a ha
        simp only [beq_iff_eq]
        rw [← hname]
        exact hex a ha
      simp [hcount]
  · -- absent name: appended at the end
    intro hnm
    show addToolList (addToolList w.tools e1) e2 = w.tools ++ [e2]
    rw [addToolList_of_not_mem w.tools e1 hnm,
      addToolList_replace_first w.tools [] e1 e2 hname]
    intro x hx
    rw [← hname]
    exact hnm x hx
  · -- present name: replaced in place at the first occurrence
    intro l1 e l2 heq hPe hnone
    show addToolList (addToolList w.tools e1) e2 = l1 ++ e2 :: l2
    rw [heq, addToolList_replace_first l1 l2 e e1 hPe hnone,
      addToolList_replace_first l1 l2 e1 e2 hname]
    intro x hx
    rw [← hname]
    exact hnone x hx

/-- Witness for C5 at a concrete workspace with one prior entry named `x`. -/
theorem c5_upsert_witness :
    ((addTool (addTool
        { version := gs "1.0", organization := [], filePath := [],
          products := [],
          tools := [{ name := gs "x", mode := gs "binary", path := gs "p0",
                      version := gs "v0" }] }
        { name := gs "x", mode := gs "binary", path := gs "p1", version := gs "v1" })
        { name := gs "x", mode := gs "clone", path := gs "p2",
          version := gs "v2" }).tools.countP
      (fun t => t.name == gs "x") = 1) :=
  (c5_upsert
    { version := gs "1.0", organization := [], filePath := [], products := [],
      tools := [{ name := gs "x", mode := gs "binary", path := gs "p0",
                  version := gs "v0" }] }
    { name := gs "x", mode := gs "binary", path := gs "p1", version := gs "v1" }
    { name := gs "x", mode := gs "clone", path := gs "p2", version := gs "v2" }
    rfl (by decide)).1

/-- Counterexample to C5 as stated: a workspace whose tools already hold two
entries named `x` still holds two after the two `AddTool` calls — `AddTool`
only replaces the first match, so "exactly one entry with that name" fails
for arbitrary workspaces. -/
theorem c5_counterexample :
    ¬ ((addTool (addTool
        { version := gs "1.0", organization := [], filePath := [],
          products := [],
          tools := [{ name := gs "x", mode := gs "binary", path := gs "pa",
                      version := gs "va" },
                    { name := gs "x", mode := gs "clone", path := gs "pb",
                      version := gs "vb" }] }
        { name := gs "x", mode := gs "binary", path := gs "p1", version := gs "v1" })
        { name := gs "x", mode := gs "submodule", path := gs "p2",
          version := gs "v2" }).tools.countP
      (fun t => t.name == gs "x") = 1) := by decide

/-! ## C2: command discovery heuristic -/

/-- C2 (code bug): on the spec's own example help text, the command parser
returns the empty list, not `[hello, init]`: each line is trimmed before the
leading-space check, so inside a commands section every non-blank line fails
the indentation test and terminates the scan. -/
theorem c2_discovery_returns_empty :
    parseCommandsFromHelp
      (gs "Commands:\n  hello   Say hello\n  init    Initialize\n") = [] := by
  decide

/-! ## C3: block opening without a space -/

/-- C3 (code bug): `ParseWorkspace` rejects `products(` and `tools(` as block
openings — the header dispatch requires the prefix `products ` / `tools `
with a trailing space, so these lines never reach the start-line parsers,
even though `parseProductsStartLine` / `parseToolsStartLine` explicitly
accept the no-space form, as the grammar's optional space requires. -/
theorem c3_block_open_no_space :
    parseWorkspace (gs "nimsforest 1.0\nproducts(\n)") =
      .error (.atLine 2 (.headerUnexpected (gs "products("))) ∧
    parseWorkspace (gs "nimsforest 1.0\ntools(\n)") =
      .error (.atLine 2 (.headerUnexpected (gs "tools("))) ∧
    parseProductsStartLine (gs "products(") = .ok () ∧
    parseToolsStartLine (gs "tools(") = .ok () := by
  refine ⟨by decide, by decide, by decide, by decide⟩

/-! ## C9: comment-only input -/

theorem parseLoop_all_skipped (ls : List GoStr) (n : Nat) (st : PState)
    (ws : Workspace) (pls tls : List GoStr)
    (h : ∀ l ∈ ls, trimSpace l = [] ∨ (gs "#").isPrefixOf (trimSpace l) = true) :
    parseLoop n st ws pls tls ls = .ok (st, ws, pls, tls) := by
  induction ls generalizing n with
  | nil => rfl
  | cons l ls ih =>
    have hl : trimSpace l = [] ∨ ((gs "#").isPrefixOf (trimSpace l) : Prop) := by
      rcases h l (List.mem_cons_self l ls) with h1 | h1
      · exact Or.inl h1
      · exact Or.inr h1
    simp only [parseLoop]
    rw [if_pos hl]
    exact ih (n + 1) fun x hx => h x (List.mem_cons_of_mem l hx)

/-- C9: any non-empty input made only of blank lines and comment lines parses
successfully to the default workspace (version `1.0`, nothing else), even
with no version line; only the empty string itself is rejected. -/
theorem c9_comment_only :
    (∀ content : GoStr, content ≠ [] →
      (∀ l ∈ splitNL content,
        trimSpace l = [] ∨ (gs "#").isPrefixOf (trimSpace l) = true) →
      parseWorkspace content = .ok newWorkspace) ∧
    parseWorkspace [] = .error .emptyContent := by
  refine ⟨?_, rfl⟩
  intro content hne h
  unfold parseWorkspace
  rw [if_neg hne, parseLoop_all_skipped _ 0 _ _ _ _ h]
  simp

/-- Witness for C9 at a concrete comment-and-blank input. -/
theorem c9_comment_only_witness :
    parseWorkspace (gs "# a comment\n\n   \n# another\n") = .ok newWorkspace :=
  c9_comment_only.1 (gs "# a comment\n\n   \n# another\n") (by decide) (by decide)

/-! ## C4: error line numbers -/

theorem parseProductLines_err (i : Nat) (ls : List GoStr) (ws : Workspace)
    (e : ParseErr) (h : parseProductLines i ls ws = .error e) :
    ∃ j, e = .emptyProductPath j := by
  induction ls generalizing i ws with
  | nil => exact absurd h (by simp [parseProductLines])
  | cons l ls ih =>
    simp only [parseProductLines] at h
    split at h
    · exact ih _ _ h
    · split at h
      · exact ⟨i + 1, (Except.error.inj h).symm⟩
      · exact ih _ _ h

theorem parseToolLines_err (i : Nat) (ls : List GoStr) (ws : Workspace)
    (e : ParseErr) (h : parseToolLines i ls ws = .error e) :
    (∃ j l, e = .toolLineFormat j l) ∨ (∃ mo j, e = .toolMode mo j) := by
  induction ls generalizing i ws with
  | nil => exact absurd h (by simp [parseToolLines])
  | cons l ls ih =>
    simp only [parseToolLines] at h
    split at h
    · exact ih _ _ h
    · split at h
      · split at h
        · exact Or.inr ⟨_, _, (Except.error.inj h).symm⟩
        · exact ih _ _ h
      · exact Or.inl ⟨_, _, (Except.error.inj h).symm⟩

theorem parseLoop_atLine (ls : List GoStr) (n : Nat) (st : PState) (ws : Workspace)
    (pls tls : List GoStr) (m : Nat) (e : ParseErr)
    (h : parseLoop n st ws pls tls ls = .error (.atLine m e)) :
    ∃ k l, ls.get? k = some l ∧ m = n + k + 1 ∧ trimSpace l ≠ [] ∧
      ¬ (gs "#").isPrefixOf (trimSpace l) = true := by
  induction ls generalizing n st ws pls tls with
  | nil => exact absurd h (by simp [parseLoop])
  | cons raw rest ih =>
    simp only [parseLoop] at h
    split at h
    case isTrue hskip =>
      obtain ⟨k, l, hget, hm, h1, h2⟩ := ih _ _ _ _ _ h
      exact ⟨k + 1, l, hget, by omega, h1, h2⟩
    case isFalse hskip =>
      push_neg at hskip
      obtain ⟨hne, hpre⟩ := hskip
      split at h
      all_goals first
        | (obtain ⟨k, l, hget, hm, h1, h2⟩ := ih _ _ _ _ _ h
           exact ⟨k + 1, l, hget, by omega, h1, h2⟩)
        | (split at h
           all_goals first
             | (obtain ⟨k, l, hget, hm, h1, h2⟩ := ih _ _ _ _ _ h
                exact ⟨k + 1, l, hget, by omega, h1, h2⟩)
             | (simp only [Except.error.injEq, ParseErr.atLine.injEq] at h
                exact ⟨0, raw, rfl, by omega, hne, hpre⟩)
             | (split at h
                all_goals first
                  | (obtain ⟨k, l, hget, hm, h1, h2⟩ := ih _ _ _ _ _ h
                     exact ⟨k + 1, l, hget, by omega, h1, h2⟩)
                  | (simp only [Except.error.injEq, ParseErr.atLine.injEq] at h
                     exact ⟨0, raw, rfl, by omega, hne, hpre⟩)
                  | (split at h
                     all_goals first
                       | (obtain ⟨k, l, hget, hm, h1, h2⟩ := ih _ _ _ _ _ h
                          exact ⟨k + 1, l, hget, by omega, h1, h2⟩)
                       | (simp only [Except.error.injEq, ParseErr.atLine.injEq] at h
                          exact ⟨0, raw, rfl, by omega, hne, hpre⟩)
                       | (split at h
                          all_goals first
                            | (obtain ⟨k, l, hget, hm, h1, h2⟩ := ih _ _ _ _ _ h
                               exact ⟨k + 1, l, hget, by omega, h1, h2⟩)
                            | (simp only [Except.error.injEq,
                                ParseErr.atLine.injEq] at h
                               exact ⟨0, raw, rfl, by omega, hne, hpre⟩)))))
        | (simp only [Except.error.injEq, ParseErr.atLine.injEq] at h
           exact ⟨0, raw, rfl, by omega, hne, hpre⟩)

/-- C4 (amended): an `atLine` error — the wrapping every scan-loop error gets
(version line, header lines, block openings, unexpected content) — carries the
1-based line number, within the whole input, of the non-blank, non-comment
line being processed.  Errors from the collected product/tool block lines
(`emptyProductPath`, `toolLineFormat`, `toolMode`) instead carry a 1-based
index within those collected lines, and unclosed-section errors carry no line
number (shown by `c4_counterexample`). -/
theorem c4_line_numbers (content : GoStr) (m : Nat) (e : ParseErr)
    (h : parseWorkspace content = .error (.atLine m e)) :
    1 ≤ m ∧ ∃ l, (splitNL content).get? (m - 1) = some l ∧ trimSpace l ≠ [] ∧
      ¬ (gs "#").isPrefixOf (trimSpace l) = true := by
  unfold parseWorkspace at h
  split at h
  · exact absurd (Except.error.inj h) (by intro hc; cases hc)
  · split at h
    case h_1 e0 heq =>
      obtain rfl : e0 = .atLine m e := Except.error.inj h
      obtain ⟨k, l, hget, hm, h1, h2⟩ := parseLoop_atLine _ 0 _ _ _ _ _ _ heq
      refine ⟨by omega, l, ?_, h1, h2⟩
      have : m - 1 = k := by omega
      rw [this]
      exact hget
    case h_2 res heq =>
      split at h
      case h_1 e1 heq1 =>
        obtain rfl : e1 = .atLine m e := Except.error.inj h
        split at heq1
        · obtain ⟨j, hj⟩ := parseProductLines_err _ _ _ _ heq1
          cases hj
        · cases heq1
      case h_2 ws1 heq1 =>
        split at h
        case h_1 e2 heq2 =>
          obtain rfl : e2 = .atLine m e := Except.error.inj h
          split at heq2
          · rcases parseToolLines_err _ _ _ _ heq2 with ⟨_, _, hj⟩ | ⟨_, _, hj⟩ <;>
              cases hj
          · cases heq2
        case h_2 ws2 heq2 =>
          split at h
          · exact absurd (Except.error.inj h) (by intro hc; cases hc)
          · split at h
            · exact absurd (Except.error.inj h) (by intro hc; cases hc)
            · exact absurd h (by intro hc; cases hc)

/-- Witness for C4's amended statement: a failing version line at input line 1. -/
theorem c4_line_numbers_witness :
    1 ≤ 1 ∧ ∃ l, (splitNL (gs "x")).get? (1 - 1) = some l ∧ trimSpace l ≠ [] ∧
      ¬ (gs "#").isPrefixOf (trimSpace l) = true :=
  c4_line_numbers (gs "x") 1 (.versionLineFormat (gs "x")) (by decide)

/-- Counterexample to C4 as stated: for a malformed tool line sitting at input
line 3, the parser reports line 1 — the index within the collected tools
block, not within the whole input (input line 1 is the version line). -/
theorem c4_counterexample :
    parseWorkspace (gs "nimsforest 1.0\ntools (\n    badtool binary\n)") =
      .error (.toolLineFormat 1 (gs "badtool binary")) ∧
    (splitNL (gs "nimsforest 1.0\ntools (\n    badtool binary\n)")).get? 0 =
      some (gs "nimsforest 1.0") ∧
    (splitNL (gs "nimsforest 1.0\ntools (\n    badtool binary\n)")).get? 2 =
      some (gs "    badtool binary") := by
  refine ⟨by decide, by decide, by decide⟩

/-! ## C6: uniqueness invariant -/

theorem addProduct_products (w : Workspace) (p : GoStr) :
    (addProduct w p).products =
      if p ∈ w.products then w.products else w.products ++ [p] := by
  unfold addProduct
  split <;> simp_all

theorem addProduct_tools (w : Workspace) (p : GoStr) :
    (addProduct w p).tools = w.tools := by
  unfold addProduct
  split <;> rfl

theorem addProduct_version (w : Workspace) (p : GoStr) :
    (addProduct w p).version = w.version := by
  unfold addProduct
  split <;> rfl

theorem addProduct_organization (w : Workspace) (p : GoStr) :
    (addProduct w p).organization = w.organization := by
  unfold addProduct
  split <;> rfl

theorem addProduct_filePath (w : Workspace) (p : GoStr) :
    (addProduct w p).filePath = w.filePath := by
  unfold addProduct
  split <;> rfl

theorem addToolList_map_name (ts : List ToolEntry) (t : ToolEntry) :
    (addToolList ts t).map ToolEntry.name =
      if t.name ∈ ts.map ToolEntry.name then ts.map ToolEntry.name
      else ts.map ToolEntry.name ++ [t.name] := by
  induction ts with
  | nil => simp [addToolList]
  | cons e es ih =>
    by_cases he : e.name = t.name
    · simp [addToolList, he]
    · have hmem : t.name ∈ e.name :: es.map ToolEntry.name ↔
          t.name ∈ es.map ToolEntry.name := by
        constructor
        · intro h1
          rcases List.mem_cons.mp h1 with h1 | h1
          · exact absurd h1.symm he
          · exact h1
        · exact List.mem_cons_of_mem _
      rw [addToolList, if_neg he, List.map_cons, ih, List.map_cons]
      by_cases hm : t.name ∈ es.map ToolEntry.name
      · rw [if_pos hm, if_pos (hmem.mpr hm)]
      · rw [if_neg hm, if_neg (fun hc => hm (hmem.mp hc)), List.cons_append]

theorem removeToolList_sublist (ts : List ToolEntry) (n : GoStr) :
    (removeToolList ts n).Sublist ts := by
  induction ts with
  | nil => exact List.Sublist.refl []
  | cons e es ih =>
    rw [removeToolList]
    split
    · exact List.sublist_cons_self e es
    · exact List.Sublist.cons₂ e ih

theorem removeProductList_sublist (ps : List GoStr) (p : GoStr) :
    (removeProductList ps p).Sublist ps := by
  induction ps with
  | nil => exact List.Sublist.refl []
  | cons q qs ih =>
    rw [removeProductList]
    split
    · exact List.sublist_cons_self q qs
    · exact List.Sublist.cons₂ q ih

theorem wsInv_applyOp (w : Workspace) (op : Op) (h : wsInv w) : wsInv (applyOp w op) := by
  obtain ⟨h1, h2⟩ := h
  cases op with
  | addProductOp p =>
    refine ⟨?_, by rw [applyOp, addProduct_tools]; exact h2⟩
    show (addProduct w p).products.Nodup
    rw [addProduct_products]
    split
    · exact h1
    next hmem =>
      rw [List.nodup_append]
      refine ⟨h1, List.nodup_singleton p, fun a ha hb => ?_⟩
      rw [List.mem_singleton] at hb
      exact hmem (hb ▸ ha)
  | removeProductOp p =>
    exact ⟨(removeProductList_sublist w.products p).nodup h1, h2⟩
  | addToolOp t =>
    refine ⟨h1, ?_⟩
    show ((addToolList w.tools t).map ToolEntry.name).Nodup
    rw [addToolList_map_name]
    split
    · exact h2
    next hmem =>
      rw [List.nodup_append]
      refine ⟨h2, List.nodup_singleton _, fun a ha hb => ?_⟩
      rw [List.mem_singleton] at hb
      exact hmem (hb ▸ ha)
  | removeToolOp n =>
    exact ⟨h1, ((removeToolList_sublist w.tools n).map ToolEntry.name).nodup h2⟩

theorem parseVersionLine_products_tools (line : GoStr) (ws ws2 : Workspace)
    (h : parseVersionLine line ws = .ok ws2) :
    ws2.products = ws.products ∧ ws2.tools = ws.tools := by
  unfold parseVersionLine at h
  split at h
  · split at h
    · cases h
    · split at h
      · cases h
      · obtain rfl := Except.ok.inj h
        exact ⟨rfl, rfl⟩
  · cases h

theorem parseOrganizationLine_products_tools (line : GoStr) (ws ws2 : Workspace)
    (h : parseOrganizationLine line ws = .ok ws2) :
    ws2.products = ws.products ∧ ws2.tools = ws.tools := by
  unfold parseOrganizationLine at h
  split at h
  · split at h
    · cases h
    · obtain rfl := Except.ok.inj h
      exact ⟨rfl, rfl⟩
  · cases h

theorem parseLoop_products_tools (ls : List GoStr) (n : Nat) (st : PState)
    (ws : Workspace) (pls tls : List GoStr) (st2 : PState) (ws2 : Workspace)
    (pls2 tls2 : List GoStr)
    (h : parseLoop n st ws pls tls ls = .ok (st2, ws2, pls2, tls2)) :
    ws2.products = ws.products ∧ ws2.tools = ws.tools := by
  induction ls generalizing n st ws pls tls with
  | nil =>
    simp only [parseLoop, Except.ok.injEq, Prod.mk.injEq] at h
    obtain ⟨-, h2, -, -⟩ := h
    rw [h2]
    exact ⟨rfl, rfl⟩
  | cons raw rest ih =>
    simp only [parseLoop] at h
    split at h
    · exact ih _ _ _ _ _ h
    · split at h
      · -- start state: version line
        split at h
        · cases h
        case h_2 wsv heq =>
          obtain ⟨hp, ht⟩ := ih _ _ _ _ _ h
          obtain ⟨hp2, ht2⟩ := parseVersionLine_products_tools _ _ _ heq
          exact ⟨hp.trans hp2, ht.trans ht2⟩
      · -- header state
        split at h
        · split at h
          · cases h
          case h_2 wso heq =>
            obtain ⟨hp, ht⟩ := ih _ _ _ _ _ h
            obtain ⟨hp2, ht2⟩ := parseOrganizationLine_products_tools _ _ _ heq
            exact ⟨hp.trans hp2, ht.trans ht2⟩
        · split at h
          · split at h
            · cases h
            · exact ih _ _ _ _ _ h
          · split at h
            · split at h
              · cases h
              · exact ih _ _ _ _ _ h
            · cases h
      · -- products state
        split at h <;> exact ih _ _ _ _ _ h
      · -- tools state
        split at h <;> exact ih _ _ _ _ _ h
      · -- end state
        cases h

theorem parseProductLines_inv (i : Nat) (ls : List GoStr) (ws ws2 : Workspace)
    (h : parseProductLines i ls ws = .ok ws2) (hinv : wsInv ws) : wsInv ws2 := by
  induction ls generalizing i ws with
  | nil =>
    obtain rfl := Except.ok.inj h
    exact hinv
  | cons l ls ih =>
    simp only [parseProductLines] at h
    split at h
    · exact ih _ _ h hinv
    · split at h
      · cases h
      · exact ih _ _ h (wsInv_applyOp ws (.addProductOp _) hinv)

theorem parseToolLines_inv (i : Nat) (ls : List GoStr) (ws ws2 : Workspace)
    (h : parseToolLines i ls ws = .ok ws2) (hinv : wsInv ws) : wsInv ws2 := by
  induction ls generalizing i ws with
  | nil =>
    obtain rfl := Except.ok.inj h
    exact hinv
  | cons l ls ih =>
    simp only [parseToolLines] at h
    split at h
    · exact ih _ _ h hinv
    · split at h
      · split at h
        · cases h
        · exact ih _ _ h (wsInv_applyOp ws (.addToolOp _) hinv)
      · cases h

theorem parseWorkspace_inv (c : GoStr) (w : Workspace)
    (h : parseWorkspace c = .ok w) : wsInv w := by
  unfold parseWorkspace at h
  split at h
  · cases h
  · split at h
    · cases h
    case h_2 st ws pls tls heq =>
      have hws : wsInv ws := by
        obtain ⟨hp, ht⟩ := parseLoop_products_tools _ _ _ _ _ _ _ _ _ _ heq
        constructor
        · rw [hp]; exact List.nodup_nil
        · rw [ht]; exact List.nodup_nil
      split at h
      · cases h
      case h_2 ws1 heq1 =>
        have hws1 : wsInv ws1 := by
          split at heq1
          · exact parseProductLines_inv _ _ _ _ heq1 hws
          · obtain rfl := Except.ok.inj heq1
            exact hws
        split at h
        · cases h
        case h_2 ws2 heq2 =>
          have hws2 : wsInv ws2 := by
            split at heq2
            · exact parseToolLines_inv _ _ _ _ heq2 hws1
            · obtain rfl := Except.ok.inj heq2
              exact hws1
          split at h
          · cases h
          · split at h
            · cases h
            · obtain rfl := Except.ok.inj h
              exact hws2

/-- C6: every workspace reachable from `NewWorkspace` through the four
mutators and through `ParseWorkspace` has pairwise-distinct product strings
and pairwise-distinct tool names, and each of these operations preserves that
invariant. -/
theorem c6_uniqueness :
    (∀ w, Reach w → wsInv w) ∧
    (∀ w op, wsInv w → wsInv (applyOp w op)) ∧
    (∀ c w, parseWorkspace c = .ok w → wsInv w) := by
  refine ⟨?_, wsInv_applyOp, parseWorkspace_inv⟩
  intro w h
  induction h with
  | base => exact ⟨List.nodup_nil, List.nodup_nil⟩
  | step op _ ih => exact wsInv_applyOp _ op ih
  | parsed hp => exact parseWorkspace_inv _ _ hp

/-- Witness for C6 on a workspace reached by one mutator call. -/
theorem c6_uniqueness_witness :
    wsInv (applyOp newWorkspace (Op.addProductOp (gs "./a"))) :=
  c6_uniqueness.1 _ (Reach.step _ Reach.base)

/-! ## C1: round trip — line splitting lemmas -/

theorem splitNL_of_no_newline (xs : GoStr) (h : '\n' ∉ xs) : splitNL xs = [xs] := by
  induction xs with
  | nil => rfl
  | cons c cs ih =>
    rw [splitNL,
      if_neg (fun hc => h (by rw [← hc]; exact List.mem_cons_self c cs)),
      ih fun hc => h (List.mem_cons_of_mem c hc)]

theorem splitNL_append_newline (xs ys : GoStr) (h : '\n' ∉ xs) :
    splitNL (xs ++ '\n' :: ys) = xs :: splitNL ys := by
  induction xs with
  | nil => simp [splitNL]
  | cons c cs ih =>
    rw [List.cons_append, splitNL,
      if_neg (fun hc => h (by rw [← hc]; exact List.mem_cons_self c cs)),
      ih fun hc => h (List.mem_cons_of_mem c hc)]

theorem mem_splitNL_no_newline (s : GoStr) : ∀ l ∈ splitNL s, '\n' ∉ l := by
  induction s with
  | nil =>
    intro l hl
    rw [splitNL, List.mem_singleton] at hl
    subst hl
    exact List.not_mem_nil _
  | cons c cs ih =>
    intro l hl
    rw [splitNL] at hl
    by_cases hc : c = '\n'
    · rw [if_pos hc] at hl
      rcases List.mem_cons.mp hl with rfl | hl2
      · exact List.not_mem_nil _
      · exact ih l hl2
    · rw [if_neg hc] at hl
      cases hsp : splitNL cs with
      | nil =>
        rw [hsp, List.mem_singleton] at hl
        subst hl
        intro hmem
        rcases List.mem_cons.mp hmem with h1 | h1
        · exact hc h1.symm
        · exact absurd h1 (List.not_mem_nil _)
      | cons x xs =>
        rw [hsp] at hl
        rcases List.mem_cons.mp hl with rfl | hl2
        · intro hmem
          rcases List.mem_cons.mp hmem with h1 | h1
          · exact hc h1.symm
          · exact ih x (hsp ▸ List.mem_cons_self x xs) h1
        · exact ih l (hsp ▸ List.mem_cons_of_mem x hl2)

theorem splitNL_joinNL (ls : List GoStr) (hne : ls ≠ [])
    (h : ∀ l ∈ ls, '\n' ∉ l) : splitNL (joinNL ls) = ls := by
  induction ls with
  | nil => exact absurd rfl hne
  | cons l ls ih =>
    cases ls with
    | nil => exact splitNL_of_no_newline l (h l (List.mem_cons_self _ _))
    | cons m ms =>
      show splitNL (l ++ '\n' :: joinNL (m :: ms)) = l :: m :: ms
      rw [splitNL_append_newline _ _ (h l (List.mem_cons_self _ _)),
        ih (by simp) fun x hx => h x (List.mem_cons_of_mem _ hx)]

/-- Splitting a serialized block: each entry is written indented with a
trailing newline, so it contributes exactly one line. -/
theorem splitNL_block (ls : List GoStr) (tail : GoStr) (h : ∀ l ∈ ls, '\n' ∉ l) :
    splitNL ((ls.map (fun l => gs "    " ++ l ++ ['\n'])).flatten ++ tail) =
      ls.map (fun l => gs "    " ++ l) ++ splitNL tail := by
  induction ls with
  | nil => simp
  | cons l ls ih =>
    rw [List.map_cons, List.flatten_cons, List.map_cons]
    have hshape : (gs "    " ++ l ++ ['\n']) ++
        ((ls.map (fun l => gs "    " ++ l ++ ['\n'])).flatten ++ tail) =
        (gs "    " ++ l) ++ '\n' ::
          ((ls.map (fun l => gs "    " ++ l ++ ['\n'])).flatten ++ tail) := by
      simp [List.append_assoc]
    rw [List.append_assoc, hshape,
      splitNL_append_newline _ _ ?nonl,
      ih fun x hx => h x (List.mem_cons_of_mem _ hx)]
    · exact rfl
    case nonl =>
      intro hmem
      rcases List.mem_append.mp hmem with h1 | h1
      · simp [gs] at h1
      · exact h l (List.mem_cons_self _ _) h1

/-! ## C1: trimming and field lemmas for serialized lines -/

theorem toolLine_shape (t : ToolEntry) :
    toolLine t = t.name ++ ' ' :: (t.mode ++ ' ' :: (t.path ++ ' ' :: t.version)) := by
  simp [toolLine, List.append_assoc]

theorem toolLine_head? (t : ToolEntry) (hne : t.name ≠ []) :
    (toolLine t).head? = t.name.head? := by
  rw [toolLine_shape]
  exact List.head?_append_of_ne_nil _ hne

theorem toolLine_getLast? (t : ToolEntry) (hne : t.version ≠ []) :
    (toolLine t).getLast? = t.version.getLast? := by
  rw [toolLine_shape, List.getLast?_append_cons]
  show ((' ' :: t.mode) ++ ' ' :: (t.path ++ ' ' :: t.version)).getLast? = _
  rw [List.getLast?_append_cons]
  show ((' ' :: t.path) ++ ' ' :: t.version).getLast? = _
  rw [List.getLast?_append_cons]
  show (([' '] : GoStr) ++ t.version).getLast? = _
  rw [List.getLast?_append_of_ne_nil _ hne]

theorem trimSpace_toolLine (t : ToolEntry) (h : goodTool t) :
    trimSpace (toolLine t) = toolLine t := by
  obtain ⟨⟨hn1, hn2⟩, -, -, ⟨hv1, hv2⟩, -, -⟩ := h
  refine trimSpace_eq_self _ ?_ ?_
  · intro c hc
    rw [toolLine_head? t hn1] at hc
    exact hn2 c (List.mem_of_mem_head? hc)
  · intro c hc
    rw [toolLine_getLast? t hv1] at hc
    exact hv2 c (List.mem_of_mem_getLast? hc)

theorem fieldsAux_no_space (f : GoStr) (h : ∀ c ∈ f, isGoSpace c = false) :
    ∀ (t acc : GoStr), fieldsAux (f ++ t) acc = fieldsAux t (f.reverse ++ acc) := by
  induction f with
  | nil => intro t acc; simp
  | cons c cs ih =>
    intro t acc
    rw [List.cons_append, fieldsAux, h c (List.mem_cons_self _ _)]
    simp only [Bool.false_eq_true, if_false]
    rw [ih (fun x hx => h x (List.mem_cons_of_mem _ hx)) t (c :: acc),
      List.reverse_cons, List.append_assoc, List.singleton_append]

theorem fieldsAux_word_space (f rest : GoStr) (hne : f ≠ [])
    (h : ∀ c ∈ f, isGoSpace c = false) :
    fieldsAux (f ++ ' ' :: rest) [] = f :: fieldsAux rest [] := by
  rw [fieldsAux_no_space f h (' ' :: rest) [], fieldsAux]
  simp [isGoSpace, hne]

theorem fieldsAux_last_word (f : GoStr) (hne : f ≠ [])
    (h : ∀ c ∈ f, isGoSpace c = false) : fieldsAux f [] = [f] := by
  have := fieldsAux_no_space f h [] []
  rw [List.append_nil] at this
  rw [this, fieldsAux]
  simp [hne]

theorem fields_toolLine (t : ToolEntry) (h : goodTool t) :
    fields (toolLine t) = [t.name, t.mode, t.path, t.version] := by
  obtain ⟨⟨hn1, hn2⟩, ⟨hm1, hm2⟩, ⟨hp1, hp2⟩, ⟨hv1, hv2⟩, -, -⟩ := h
  unfold fields
  rw [toolLine_shape,
    fieldsAux_word_space _ _ hn1 hn2,
    fieldsAux_word_space _ _ hm1 hm2,
    fieldsAux_word_space _ _ hp1 hp2,
    fieldsAux_last_word _ hv1 hv2]

/-! ## C1: stepping the scan loop over serialized lines -/

theorem singleton_isPrefixOf_iff (c : Char) (l : GoStr) :
    [c].isPrefixOf l = true ↔ l.head? = some c := by
  cases l with
  | nil => simp [List.isPrefixOf]
  | cons d ds =>
    simp only [List.isPrefixOf, Bool.and_true, beq_iff_eq, List.head?,
      Option.some.injEq]
    exact eq_comm

theorem parseLoop_version_step (n : Nat) (ws : Workspace) (pls tls rest : List GoStr) :
    parseLoop n .start ws pls tls (gs "nimsforest 1.0" :: rest) =
      parseLoop (n + 1) .header { ws with version := gs "1.0" } pls tls rest := rfl

theorem parseLoop_blank_step (n : Nat) (st : PState) (ws : Workspace)
    (pls tls rest : List GoStr) :
    parseLoop n st ws pls tls ([] :: rest) = parseLoop (n + 1) st ws pls tls rest := rfl

theorem parseLoop_products_open_step (n : Nat) (ws : Workspace)
    (pls tls rest : List GoStr) :
    parseLoop n .header ws pls tls (gs "products (" :: rest) =
      parseLoop (n + 1) .products ws pls tls rest := rfl

theorem parseLoop_tools_open_step (n : Nat) (ws : Workspace)
    (pls tls rest : List GoStr) :
    parseLoop n .header ws pls tls (gs "tools (" :: rest) =
      parseLoop (n + 1) .tools ws pls tls rest := rfl

theorem parseLoop_close_products_step (n : Nat) (ws : Workspace)
    (pls tls rest : List GoStr) :
    parseLoop n .products ws pls tls ([')'] :: rest) =
      parseLoop (n + 1) .header ws pls tls rest := rfl

theorem parseLoop_close_tools_step (n : Nat) (ws : Workspace)
    (pls tls rest : List GoStr) :
    parseLoop n .tools ws pls tls ([')'] :: rest) =
      parseLoop (n + 1) .header ws pls tls rest := rfl

theorem parseLoop_product_line_step (n : Nat) (ws : Workspace)
    (pls tls rest : List GoStr) (p : GoStr) (hp : goodProduct p) :
    parseLoop n .products ws pls tls ((gs "    " ++ p) :: rest) =
      parseLoop (n + 1) .products ws (pls ++ [p]) tls rest := by
  obtain ⟨htrim, hne, hpre, hrp, -⟩ := hp
  have ht : trimSpace (gs "    " ++ p) = p := by rw [trimSpace_indent, htrim]
  simp only [parseLoop, ht]
  rw [if_neg, if_neg hrp]
  intro hor
  rcases hor with h1 | h1
  · exact hne h1
  · simp [hpre] at h1

theorem parseLoop_tool_line_step (n : Nat) (ws : Workspace)
    (pls tls rest : List GoStr) (t : ToolEntry) (h : goodTool t) :
    parseLoop n .tools ws pls tls ((gs "    " ++ toolLine t) :: rest) =
      parseLoop (n + 1) .tools ws pls (tls ++ [toolLine t]) rest := by
  have ht : trimSpace (gs "    " ++ toolLine t) = toolLine t := by
    rw [trimSpace_indent, trimSpace_toolLine t h]
  have hfields := fields_toolLine t h
  obtain ⟨⟨hn1, hn2⟩, -, -, -, -, hhash⟩ := h
  have hlne : toolLine t ≠ [] := by
    intro hc
    rw [toolLine_shape] at hc
    rcases List.append_eq_nil.mp hc with ⟨-, hc2⟩
    cases hc2
  have hnotpre : (gs "#").isPrefixOf (toolLine t) = false := by
    rw [show (gs "#") = ['#'] from rfl]
    rw [Bool.eq_false_iff]
    intro hc
    rw [singleton_isPrefixOf_iff] at hc
    rw [toolLine_head? t hn1] at hc
    exact hhash hc
  have hnotclose : toolLine t ≠ [')'] := by
    intro hc
    have hlen := congrArg List.length hfields
    rw [hc] at hlen
    have h1 : (fields [')']).length = 1 := by decide
    rw [h1] at hlen
    simp at hlen
  simp only [parseLoop, ht]
  rw [if_neg, if_neg hnotclose]
  intro hor
  rcases hor with h1 | h1
  · exact hlne h1
  · simp [hnotpre] at h1

theorem parseLoop_products_bulk (ps : List GoStr) (h : ∀ p ∈ ps, goodProduct p)
    (n : Nat) (ws : Workspace) (pls tls rest : List GoStr) :
    parseLoop n .products ws pls tls (ps.map (fun p => gs "    " ++ p) ++ rest) =
      parseLoop (n + ps.length) .products ws (pls ++ ps) tls rest := by
  induction ps generalizing n pls with
  | nil => simp
  | cons p ps ih =>
    rw [List.map_cons, List.cons_append,
      parseLoop_product_line_step n ws pls tls _ p (h p (List.mem_cons_self _ _)),
      ih (fun q hq => h q (List.mem_cons_of_mem _ hq)) (n + 1) (pls ++ [p])]
    have e1 : n + 1 + ps.length = n + (p :: ps).length := by
      rw [List.length_cons]; omega
    have e2 : (pls ++ [p]) ++ ps = pls ++ p :: ps := by
      rw [List.append_assoc]; rfl
    rw [e1, e2]

theorem parseLoop_tools_bulk (ts : List ToolEntry) (h : ∀ t ∈ ts, goodTool t)
    (n : Nat) (ws : Workspace) (pls tls rest : List GoStr) :
    parseLoop n .tools ws pls tls
        (ts.map (fun t => gs "    " ++ toolLine t) ++ rest) =
      parseLoop (n + ts.length) .tools ws pls (tls ++ ts.map toolLine) rest := by
  induction ts generalizing n tls with
  | nil => simp
  | cons t ts ih =>
    rw [List.map_cons, List.cons_append,
      parseLoop_tool_line_step n ws pls tls _ t (h t (List.mem_cons_self _ _)),
      ih (fun q hq => h q (List.mem_cons_of_mem _ hq)) (n + 1) (tls ++ [toolLine t])]
    have e1 : n + 1 + ts.length = n + (t :: ts).length := by
      rw [List.length_cons]; omega
    have e2 : (tls ++ [toolLine t]) ++ ts.map toolLine =
        tls ++ (t :: ts).map toolLine := by
      rw [List.append_assoc, List.map_cons]; rfl
    rw [e1, e2]

/-! ## C1: applying the collected block lines -/

theorem parseProductLines_good (ps : List GoStr) (h : ∀ p ∈ ps, goodProduct p) :
    ∀ (i : Nat) (ws : Workspace),
    parseProductLines i ps ws = .ok (ps.foldl addProduct ws) := by
  induction ps with
  | nil => intro i ws; rfl
  | cons p ps ih =>
    intro i ws
    obtain ⟨htrim, hne, hpre, -, -⟩ := h p (List.mem_cons_self _ _)
    simp only [parseProductLines, htrim]
    rw [if_neg, if_neg hne, List.foldl_cons]
    · exact ih (fun q hq => h q (List.mem_cons_of_mem _ hq)) (i + 1) (addProduct ws p)
    · intro hor
      rcases hor with h1 | h1
      · exact hne h1
      · simp [hpre] at h1

theorem toolLine_ne_nil (t : ToolEntry) (h : goodTool t) : toolLine t ≠ [] := by
  obtain ⟨⟨hn1, -⟩, -⟩ := h
  intro hc
  rw [toolLine_shape] at hc
  rcases List.append_eq_nil.mp hc with ⟨-, hc2⟩
  cases hc2

theorem toolLine_not_comment (t : ToolEntry) (h : goodTool t) :
    (gs "#").isPrefixOf (toolLine t) = false := by
  obtain ⟨⟨hn1, -⟩, -, -, -, -, hhash⟩ := h
  rw [show (gs "#") = ['#'] from rfl, Bool.eq_false_iff]
  intro hc
  rw [singleton_isPrefixOf_iff, toolLine_head? t hn1] at hc
  exact hhash hc

theorem parseToolLines_good (ts : List ToolEntry) (h : ∀ t ∈ ts, goodTool t) :
    ∀ (i : Nat) (ws : Workspace),
    parseToolLines i (ts.map toolLine) ws = .ok (ts.foldl addTool ws) := by
  induction ts with
  | nil => intro i ws; rfl
  | cons t ts ih =>
    intro i ws
    have hg := h t (List.mem_cons_self _ _)
    have htrim := trimSpace_toolLine t hg
    have hfields := fields_toolLine t hg
    have hlne := toolLine_ne_nil t hg
    have hnotpre := toolLine_not_comment t hg
    obtain ⟨-, -, -, -, hmode, -⟩ := hg
    simp only [List.map_cons, parseToolLines, htrim]
    rw [if_neg, hfields]
    · show (if t.mode ≠ gs "binary" ∧ t.mode ≠ gs "clone" ∧ t.mode ≠ gs "submodule" then
          Except.error (ParseErr.toolMode t.mode (i + 1))
        else parseToolLines (i + 1) (List.map toolLine ts)
          (addTool ws { name := t.name, mode := t.mode, path := t.path,
                        version := t.version })) =
        Except.ok (List.foldl addTool ws (t :: ts))
      rw [if_neg, List.foldl_cons]
      · exact ih (fun q hq => h q (List.mem_cons_of_mem _ hq)) (i + 1) (addTool ws t)
      · intro hcon
        obtain ⟨hb, hc2, hs⟩ := hcon
        rcases hmode with hm | hm | hm
        · exact hb hm
        · exact hc2 hm
        · exact hs hm
    · intro hor
      rcases hor with h1 | h1
      · exact hlne h1
      · simp [hnotpre] at h1

theorem foldl_addProduct_fresh (ps : List GoStr) :
    ∀ (w : Workspace), (∀ p ∈ ps, p ∉ w.products) → ps.Nodup →
    ps.foldl addProduct w = { w with products := w.products ++ ps } := by
  induction ps with
  | nil =>
    intro w _ _
    show w = { w with products := w.products ++ [] }
    rw [List.append_nil]
  | cons p ps ih =>
    intro w hdisj hnd
    rw [List.foldl_cons]
    have hstep : addProduct w p = { w with products := w.products ++ [p] } := by
      unfold addProduct
      rw [if_neg (hdisj p (List.mem_cons_self _ _))]
    rw [hstep, ih _ ?disj (List.Nodup.of_cons hnd)]
    · show ({ w with products := (w.products ++ [p]) ++ ps } : Workspace) = _
      rw [List.append_assoc, List.singleton_append]
    case disj =>
      intro q hq
      simp only [List.mem_append, List.mem_singleton]
      rintro (hq2 | rfl)
      · exact hdisj q (List.mem_cons_of_mem _ hq) hq2
      · exact (List.nodup_cons.mp hnd).1 hq

theorem foldl_addTool_fresh (ts : List ToolEntry) :
    ∀ (w : Workspace), (∀ t ∈ ts, ∀ e ∈ w.tools, e.name ≠ t.name) →
      (ts.map ToolEntry.name).Nodup →
    ts.foldl addTool w = { w with tools := w.tools ++ ts } := by
  induction ts with
  | nil =>
    intro w _ _
    show w = { w with tools := w.tools ++ [] }
    rw [List.append_nil]
  | cons t ts ih =>
    intro w hdisj hnd
    have hnd2 : (t.name :: ts.map ToolEntry.name).Nodup := by simpa using hnd
    rw [List.foldl_cons]
    have hstep : addTool w t = { w with tools := w.tools ++ [t] } := by
      unfold addTool
      rw [addToolList_of_not_mem w.tools t (hdisj t (List.mem_cons_self _ _))]
    rw [hstep, ih _ ?disj (List.nodup_cons.mp hnd2).2]
    · show ({ w with tools := (w.tools ++ [t]) ++ ts } : Workspace) = _
      rw [List.append_assoc, List.singleton_append]
    case disj =>
      intro q hq e he
      rcases List.mem_append.mp he with he2 | he2
      · exact hdisj q (List.mem_cons_of_mem _ hq) e he2
      · rw [List.mem_singleton] at he2
        subst he2
        intro hc
        have hmem : q.name ∈ ts.map ToolEntry.name := List.mem_map_of_mem _ hq
        rw [← hc] at hmem
        exact (List.nodup_cons.mp hnd2).1 hmem

/-! ## C1: well-formedness is preserved by the mutators -/

theorem addToolList_mem (ts : List ToolEntry) (t : ToolEntry) :
    ∀ e ∈ addToolList ts t, e ∈ ts ∨ e = t := by
  induction ts with
  | nil =>
    intro e he
    rw [addToolList, List.mem_singleton] at he
    exact Or.inr he
  | cons x xs ih =>
    intro e he
    rw [addToolList] at he
    split at he
    · rcases List.mem_cons.mp he with rfl | h2
      · exact Or.inr rfl
      · exact Or.inl (List.mem_cons_of_mem _ h2)
    · rcases List.mem_cons.mp he with rfl | h2
      · exact Or.inl (List.mem_cons_self _ _)
      · rcases ih e h2 with h3 | h3
        · exact Or.inl (List.mem_cons_of_mem _ h3)
        · exact Or.inr h3

theorem reachWF_applyOp (w : Workspace) (op : Op) (hWF : reachWF w) (hop : opWF op) :
    reachWF (applyOp w op) := by
  obtain ⟨h1, h2, h3, h4, h5, h6, h7⟩ := hWF
  cases op with
  | addProductOp p =>
    show reachWF (addProduct w p)
    refine ⟨by rw [addProduct_version]; exact h1,
            by rw [addProduct_organization]; exact h2,
            by rw [addProduct_filePath]; exact h3, ?_, ?_,
            by rw [addProduct_tools]; exact h6,
            by rw [addProduct_tools]; exact h7⟩
    · rw [addProduct_products]
      split
      · exact h4
      · intro q hq
        rcases List.mem_append.mp hq with hq2 | hq2
        · exact h4 q hq2
        · rw [List.mem_singleton] at hq2
          subst hq2
          exact hop
    · rw [addProduct_products]
      split
      · exact h5
      next hmem =>
        rw [List.nodup_append]
        exact ⟨h5, List.nodup_singleton _, fun a ha hb => by
          rw [List.mem_singleton] at hb
          exact hmem (hb ▸ ha)⟩
  | removeProductOp p =>
    have hsub := removeProductList_sublist w.products p
    exact ⟨h1, h2, h3, fun q hq => h4 q (hsub.subset hq), hsub.nodup h5, h6, h7⟩
  | addToolOp t =>
    show reachWF (addTool w t)
    refine ⟨h1, h2, h3, h4, h5, ?_, ?_⟩
    · intro e he
      rcases addToolList_mem w.tools t e he with h8 | h8
      · exact h6 e h8
      · subst h8
        exact hop
    · show ((addToolList w.tools t).map ToolEntry.name).Nodup
      rw [addToolList_map_name]
      split
      · exact h7
      next hmem =>
        rw [List.nodup_append]
        exact ⟨h7, List.nodup_singleton _, fun a ha hb => by
          rw [List.mem_singleton] at hb
          exact hmem (hb ▸ ha)⟩
  | removeToolOp n =>
    have hsub := removeToolList_sublist w.tools n
    exact ⟨h1, h2, h3, h4, h5, fun e he => h6 e (hsub.subset he),
      ((hsub.map ToolEntry.name).nodup h7)⟩

theorem reachWF_new : reachWF newWorkspace := by
  refine ⟨rfl, rfl, rfl, ?_, ?_, ?_, ?_⟩ <;> simp [newWorkspace]

theorem reachWF_applyOps (ops : List Op) :
    ∀ w, reachWF w → (∀ op ∈ ops, opWF op) → reachWF (applyOps w ops) := by
  induction ops with
  | nil => intro w h _; exact h
  | cons op ops ih =>
    intro w h hops
    show reachWF (applyOps (applyOp w op) ops)
    exact ih _ (reachWF_applyOp w op h (hops op (List.mem_cons_self _ _)))
      fun q hq => hops q (List.mem_cons_of_mem _ hq)

/-! ## C1: the round trip -/

theorem parseLoop_nil (n : Nat) (st : PState) (ws : Workspace) (pls tls : List GoStr) :
    parseLoop n st ws pls tls [] = .ok (st, ws, pls, tls) := rfl

theorem splitNL_cons_newline (ys : GoStr) : splitNL ('\n' :: ys) = [] :: splitNL ys := rfl

/-- Reassembling `ParseWorkspace` from the scan loop's result and the two
block-line passes. -/
theorem parseWorkspace_assemble (content : GoStr) (ws : Workspace)
    (pls tls : List GoStr) (res1 res2 : Workspace)
    (hne : content ≠ [])
    (hloop : parseLoop 0 .start newWorkspace [] [] (splitNL content) =
      .ok (.header, ws, pls, tls))
    (hp : (if pls ≠ [] then parseProductLines 0 pls ws else .ok ws) = .ok res1)
    (ht : (if tls ≠ [] then parseToolLines 0 tls res1 else .ok res1) = .ok res2) :
    parseWorkspace content = .ok res2 := by
  unfold parseWorkspace
  rw [if_neg hne, hloop]
  dsimp only
  rw [hp]
  dsimp only
  rw [ht]
  rfl

theorem toolLine_no_newline (t : ToolEntry) (h : goodTool t) : '\n' ∉ toolLine t := by
  obtain ⟨⟨-, hn2⟩, ⟨-, hm2⟩, ⟨-, hp2⟩, ⟨-, hv2⟩, -, -⟩ := h
  intro hc
  rw [toolLine_shape] at hc
  simp only [List.mem_append, List.mem_cons] at hc
  rcases hc with h1 | h1 | h1 | h1 | h1 | h1 | h1
  · have := hn2 '\n' h1; simp [isGoSpace] at this
  · cases h1
  · have := hm2 '\n' h1; simp [isGoSpace] at this
  · cases h1
  · have := hp2 '\n' h1; simp [isGoSpace] at this
  · cases h1
  · have := hv2 '\n' h1; simp [isGoSpace] at this

theorem roundtrip_of_reachWF (w : Workspace) (h : reachWF w) :
    parseWorkspace (wsString w) = .ok w := by
  obtain ⟨hver, horg, hfp, hgood, hnd, htools, htnd⟩ := h
  obtain ⟨ver, org, ps, ts, fp⟩ := w
  dsimp only at hver horg hfp hgood hnd htools htnd
  subst hver horg hfp
  have hmap : ∀ t : ToolEntry,
      gs "    " ++ t.name ++ [' '] ++ t.mode ++ [' '] ++ t.path ++ [' '] ++
        t.version ++ ['\n'] = gs "    " ++ toolLine t ++ ['\n'] := by
    intro t
    simp [toolLine, List.append_assoc]
  have hnlb : ∀ l ∈ ts.map toolLine, '\n' ∉ l := by
    intro l hl
    obtain ⟨t, ht, rfl⟩ := List.mem_map.mp hl
    exact toolLine_no_newline t (htools t ht)
  have hnlp : ∀ p ∈ ps, '\n' ∉ p := fun p hp => (hgood p hp).2.2.2.2
  by_cases hps : ps = []
  · by_cases hts : ts = []
    · subst hps hts
      decide
    · -- tools only
      subst hps
      have hstr : wsString ⟨gs "1.0", [], [], ts, []⟩ =
          gs "nimsforest 1.0" ++ '\n' ::
            (gs "tools (" ++ '\n' ::
              ((ts.map (fun t => gs "    " ++ toolLine t ++ ['\n'])).flatten ++
                [')'])) := by
        simp only [wsString, ne_eq, not_true_eq_false, hts, not_false_eq_true,
          false_or, or_false, or_self, if_false, if_true, List.append_nil,
          List.nil_append, List.map_congr_left (fun t _ => hmap t)]
        rfl
      have hflat : ts.map (fun t => gs "    " ++ toolLine t ++ ['\n']) =
          (ts.map toolLine).map (fun l => gs "    " ++ l ++ ['\n']) := by
        rw [List.map_map]
        rfl
      have hsplit : splitNL (wsString ⟨gs "1.0", [], [], ts, []⟩) =
          gs "nimsforest 1.0" :: gs "tools (" ::
            (ts.map (fun t => gs "    " ++ toolLine t) ++ [[')']]) := by
        rw [hstr, splitNL_append_newline _ _ (by decide)]
        congr 1
        rw [splitNL_append_newline _ _ (by decide)]
        congr 1
        rw [hflat, splitNL_block (ts.map toolLine) [')'] hnlb, List.map_map]
        rfl
      have hne0 : wsString ⟨gs "1.0", [], [], ts, []⟩ ≠ [] := by
        rw [hstr]
        simp
      have hmapne : ts.map toolLine ≠ [] := by simp [hts]
      refine parseWorkspace_assemble _ { newWorkspace with version := gs "1.0" } []
        (ts.map toolLine) _ _ hne0 ?_ rfl ?_
      · rw [hsplit, parseLoop_version_step, parseLoop_tools_open_step,
          parseLoop_tools_bulk ts htools, parseLoop_close_tools_step, parseLoop_nil]
        rfl
      · rw [if_pos hmapne, parseToolLines_good ts htools 0 _,
          foldl_addTool_fresh ts _ (fun t _ e he => absurd he (List.not_mem_nil e))
            htnd]
        rfl
  · by_cases hts : ts = []
    · -- products only
      subst hts
      have hstr : wsString ⟨gs "1.0", [], ps, [], []⟩ =
          gs "nimsforest 1.0" ++ '\n' :: '\n' ::
            (gs "products (" ++ '\n' ::
              ((ps.map (fun p => gs "    " ++ p ++ ['\n'])).flatten ++ [')'])) := by
        simp only [wsString, ne_eq, not_true_eq_false, hps, not_false_eq_true,
          false_or, or_false, or_self, if_false, if_true, List.append_nil,
          List.nil_append]
        rfl
      have hsplit : splitNL (wsString ⟨gs "1.0", [], ps, [], []⟩) =
          gs "nimsforest 1.0" :: [] :: gs "products (" ::
            (ps.map (fun p => gs "    " ++ p) ++ [[')']]) := by
        rw [hstr, splitNL_append_newline _ _ (by decide)]
        congr 1
        rw [splitNL_cons_newline]
        congr 1
        rw [splitNL_append_newline _ _ (by decide)]
        congr 1
        rw [splitNL_block ps [')'] hnlp]
        rfl
      have hne0 : wsString ⟨gs "1.0", [], ps, [], []⟩ ≠ [] := by
        rw [hstr]
        simp
      refine parseWorkspace_assemble _ { newWorkspace with version := gs "1.0" } ps
        [] _ _ hne0 ?_ ?_ rfl
      · rw [hsplit, parseLoop_version_step, parseLoop_blank_step,
          parseLoop_products_open_step, parseLoop_products_bulk ps hgood,
          parseLoop_close_products_step, parseLoop_nil]
        rfl
      · rw [if_pos hps, parseProductLines_good ps hgood 0 _,
          foldl_addProduct_fresh ps _ (fun p _ hmem => absurd hmem
            (List.not_mem_nil p)) hnd]
        rfl
    · -- products and tools
      have hstr : wsString ⟨gs "1.0", [], ps, ts, []⟩ =
          gs "nimsforest 1.0" ++ '\n' :: '\n' ::
            (gs "products (" ++ '\n' ::
              (((ps.map (fun p => gs "    " ++ p ++ ['\n'])).flatten ++ [')']) ++
                ('\n' :: '\n' ::
                  (gs "tools (" ++ '\n' ::
                    ((ts.map (fun t => gs "    " ++ toolLine t ++ ['\n'])).flatten ++
                      [')']))))) := by
        simp only [wsString, ne_eq, not_true_eq_false, hps, hts, not_false_eq_true,
          false_or, or_false, or_self, true_or, or_true, if_false, if_true,
          List.append_nil, List.nil_append,
          List.map_congr_left (fun t _ => hmap t)]
        rfl
      have hflat : ts.map (fun t => gs "    " ++ toolLine t ++ ['\n']) =
          (ts.map toolLine).map (fun l => gs "    " ++ l ++ ['\n']) := by
        rw [List.map_map]
        rfl
      have hsplit : splitNL (wsString ⟨gs "1.0", [], ps, ts, []⟩) =
          gs "nimsforest 1.0" :: [] :: gs "products (" ::
            (ps.map (fun p => gs "    " ++ p) ++
              ([')'] :: [] :: gs "tools (" ::
                (ts.map (fun t => gs "    " ++ toolLine t) ++ [[')']]))) := by
        rw [hstr, splitNL_append_newline _ _ (by decide)]
        congr 1
        rw [splitNL_cons_newline]
        congr 1
        rw [splitNL_append_newline _ _ (by decide)]
        congr 1
        rw [List.append_assoc, splitNL_block ps _ hnlp]
        congr 1
        rw [show ([')'] : GoStr) ++ '\n' :: '\n' ::
            (gs "tools (" ++ '\n' ::
              ((ts.map (fun t => gs "    " ++ toolLine t ++ ['\n'])).flatten ++
                [')'])) =
          ([')'] : GoStr) ++ '\n' :: ('\n' ::
            (gs "tools (" ++ '\n' ::
              ((ts.map (fun t => gs "    " ++ toolLine t ++ ['\n'])).flatten ++
                [')']))) from rfl,
          splitNL_append_newline _ _ (by decide)]
        congr 1
        rw [splitNL_cons_newline]
        congr 1
        rw [splitNL_append_newline _ _ (by decide)]
        congr 1
        rw [hflat, splitNL_block (ts.map toolLine) [')'] hnlb, List.map_map]
        rfl
      have hne0 : wsString ⟨gs "1.0", [], ps, ts, []⟩ ≠ [] := by
        rw [hstr]
        simp
      have hmapne : ts.map toolLine ≠ [] := by simp [hts]
      refine parseWorkspace_assemble _ { newWorkspace with version := gs "1.0" } ps
        (ts.map toolLine) ⟨gs "1.0", [], ps, [], []⟩ _ hne0 ?_ ?_ ?_
      · rw [hsplit, parseLoop_version_step, parseLoop_blank_step,
          parseLoop_products_open_step, parseLoop_products_bulk ps hgood,
          parseLoop_close_products_step, parseLoop_blank_step,
          parseLoop_tools_open_step, parseLoop_tools_bulk ts htools,
          parseLoop_close_tools_step, parseLoop_nil]
        rfl
      · rw [if_pos hps, parseProductLines_good ps hgood 0 _,
          foldl_addProduct_fresh ps _ (fun p _ hmem => absurd hmem
            (List.not_mem_nil p)) hnd]
        rfl
      · rw [if_pos hmapne, parseToolLines_good ts htools 0 _,
          foldl_addTool_fresh ts _ (fun t _ e he => absurd he (List.not_mem_nil e))
            htnd]
        rfl

/-- C1 (amended): for every workspace built from the empty descriptor by any
sequence of mutator calls whose arguments are representable in the line
format — product paths that are trimmed, nonempty, newline-free, not comment
lines and not `)`; tool entries with nonempty whitespace-free fields, a valid
mode, and a name not opening a comment — parsing the serialization yields the
same descriptor (same version, organization, product sequence, tool
sequence). -/
theorem c1_roundtrip (ops : List Op) (h : ∀ op ∈ ops, opWF op) :
    parseWorkspace (wsString (applyOps newWorkspace ops)) =
      .ok (applyOps newWorkspace ops) :=
  roundtrip_of_reachWF _ (reachWF_applyOps ops newWorkspace reachWF_new h)

/-- Witness for C1 on a concrete mutator sequence exercising all four
mutators. -/
theorem c1_roundtrip_witness :
    parseWorkspace (wsString (applyOps newWorkspace
      [Op.addProductOp (gs "./products-workspace/alpha"),
       Op.addToolOp { name := gs "example-tool", mode := gs "binary",
                      path := gs "bin/example-tool", version := gs "latest" },
       Op.addProductOp (gs "./products-workspace/beta"),
       Op.addToolOp { name := gs "other", mode := gs "clone",
                      path := gs "tools/other", version := gs "v2" },
       Op.removeProductOp (gs "./products-workspace/alpha"),
       Op.removeToolOp (gs "other")])) =
      .ok (applyOps newWorkspace
      [Op.addProductOp (gs "./products-workspace/alpha"),
       Op.addToolOp { name := gs "example-tool", mode := gs "binary",
                      path := gs "bin/example-tool", version := gs "latest" },
       Op.addProductOp (gs "./products-workspace/beta"),
       Op.addToolOp { name := gs "other", mode := gs "clone",
                      path := gs "tools/other", version := gs "v2" },
       Op.removeProductOp (gs "./products-workspace/alpha"),
       Op.removeToolOp (gs "other")]) :=
  c1_roundtrip
    [Op.addProductOp (gs "./products-workspace/alpha"),
     Op.addToolOp { name := gs "example-tool", mode := gs "binary",
                    path := gs "bin/example-tool", version := gs "latest" },
     Op.addProductOp (gs "./products-workspace/beta"),
     Op.addToolOp { name := gs "other", mode := gs "clone",
                    path := gs "tools/other", version := gs "v2" },
     Op.removeProductOp (gs "./products-workspace/alpha"),
     Op.removeToolOp (gs "other")] (by decide)

/-- Counterexample to C1 as stated: adding the empty product path — a legal
`AddProduct` call — produces a serialization whose re-parse silently drops
the product: parsing succeeds but yields a different descriptor. -/
theorem c1_counterexample :
    parseWorkspace (wsString (applyOps newWorkspace [Op.addProductOp []])) =
      .ok newWorkspace ∧
    applyOps newWorkspace [Op.addProductOp []] ≠ newWorkspace := by
  refine ⟨by decide, by decide⟩

/-! ## C10: normalization is idempotent -/

theorem head?_dropWhile (p : Char → Bool) (l : GoStr) :
    ∀ c, (l.dropWhile p).head? = some c → p c = false := by
  induction l with
  | nil => intro c hc; cases hc
  | cons a as ih =>
    intro c hc
    rw [List.dropWhile_cons] at hc
    split at hc
    · exact ih c hc
    next hpa =>
      obtain rfl : a = c := Option.some.inj hc
      exact Bool.eq_false_iff.mpr hpa

theorem trimSpace_idem (s : GoStr) : trimSpace (trimSpace s) = trimSpace s := by
  refine trimSpace_eq_self _ ?_ ?_
  · intro c hc
    unfold trimSpace at hc
    rw [List.head?_reverse] at hc
    have hxne : ((List.dropWhile isGoSpace s).reverse.dropWhile isGoSpace) ≠ [] := by
      intro h0
      rw [h0] at hc
      cases hc
    obtain ⟨pre, hpre⟩ :=
      List.dropWhile_suffix (l := (List.dropWhile isGoSpace s).reverse) isGoSpace
    have hy : ((List.dropWhile isGoSpace s).reverse).getLast? = some c := by
      rw [← hpre, List.getLast?_append_of_ne_nil _ hxne]
      exact hc
    rw [List.getLast?_reverse] at hy
    exact head?_dropWhile isGoSpace s c hy
  · intro c hc
    unfold trimSpace at hc
    rw [List.getLast?_reverse] at hc
    exact head?_dropWhile isGoSpace _ c hc

theorem normLoop_cons_blank (p t : Bool) (raw : GoStr) (X : List GoStr)
    (h1 : trimSpace raw = []) :
    normLoop p t (raw :: X) = [] :: normLoop p t X := by
  simp [normLoop, h1]

theorem normLoop_cons_comment (p t : Bool) (raw : GoStr) (X : List GoStr)
    (h1 : trimSpace raw ≠ [])
    (h2 : (gs "#").isPrefixOf (trimSpace raw) = true) :
    normLoop p t (raw :: X) = raw :: normLoop p t X := by
  simp [normLoop, h1, h2]

theorem normLoop_cons_nims (p t : Bool) (raw : GoStr) (X : List GoStr)
    (h1 : trimSpace raw ≠ [])
    (h2 : (gs "#").isPrefixOf (trimSpace raw) = false)
    (h3 : (gs "nimsforest ").isPrefixOf (trimSpace raw) = true) :
    normLoop p t (raw :: X) = trimSpace raw :: normLoop p t X := by
  simp [normLoop, h1, h2, h3]

theorem normLoop_cons_org (p t : Bool) (raw : GoStr) (X : List GoStr)
    (h1 : trimSpace raw ≠ [])
    (h2 : (gs "#").isPrefixOf (trimSpace raw) = false)
    (h3 : (gs "nimsforest ").isPrefixOf (trimSpace raw) = false)
    (h4 : (gs "organization ").isPrefixOf (trimSpace raw) = true) :
    normLoop p t (raw :: X) = trimSpace raw :: normLoop p t X := by
  simp [normLoop, h1, h2, h3, h4]

theorem normLoop_cons_products (p t : Bool) (raw : GoStr) (X : List GoStr)
    (h1 : trimSpace raw ≠ [])
    (h2 : (gs "#").isPrefixOf (trimSpace raw) = false)
    (h3 : (gs "nimsforest ").isPrefixOf (trimSpace raw) = false)
    (h4 : (gs "organization ").isPrefixOf (trimSpace raw) = false)
    (h5 : (gs "products ").isPrefixOf (trimSpace raw) = true) :
    normLoop p t (raw :: X) = gs "products (" :: normLoop true t X := by
  simp [normLoop, h1, h2, h3, h4, h5]

theorem normLoop_cons_tools (p t : Bool) (raw : GoStr) (X : List GoStr)
    (h1 : trimSpace raw ≠ [])
    (h2 : (gs "#").isPrefixOf (trimSpace raw) = false)
    (h3 : (gs "nimsforest ").isPrefixOf (trimSpace raw) = false)
    (h4 : (gs "organization ").isPrefixOf (trimSpace raw) = false)
    (h5 : (gs "products ").isPrefixOf (trimSpace raw) = false)
    (h6 : (gs "tools ").isPrefixOf (trimSpace raw) = true) :
    normLoop p t (raw :: X) = gs "tools (" :: normLoop p true X := by
  simp [normLoop, h1, h2, h3, h4, h5, h6]

theorem normLoop_cons_close (p t : Bool) (raw : GoStr) (X : List GoStr)
    (h1 : trimSpace raw = [')'])
    (hpt : p ∨ t) :
    normLoop p t (raw :: X) = [')'] :: normLoop false false X := by
  have e2 : (gs "#").isPrefixOf ([')'] : GoStr) = false := by decide
  have e3 : (gs "nimsforest ").isPrefixOf ([')'] : GoStr) = false := by decide
  have e4 : (gs "organization ").isPrefixOf ([')'] : GoStr) = false := by decide
  have e5 : (gs "products ").isPrefixOf ([')'] : GoStr) = false := by decide
  have e6 : (gs "tools ").isPrefixOf ([')'] : GoStr) = false := by decide
  simp [normLoop, h1, e2, e3, e4, e5, e6, hpt]

theorem normLoop_cons_rest (p t : Bool) (raw : GoStr) (X : List GoStr)
    (h1 : trimSpace raw ≠ [])
    (h2 : (gs "#").isPrefixOf (trimSpace raw) = false)
    (h3 : (gs "nimsforest ").isPrefixOf (trimSpace raw) = false)
    (h4 : (gs "organization ").isPrefixOf (trimSpace raw) = false)
    (h5 : (gs "products ").isPrefixOf (trimSpace raw) = false)
    (h6 : (gs "tools ").isPrefixOf (trimSpace raw) = false)
    (h7 : ¬ (trimSpace raw = [')'] ∧ (p ∨ t))) :
    normLoop p t (raw :: X) =
      (if p then gs "    " ++ trimSpace raw
       else if t then gs "    " ++ trimSpace raw
       else trimSpace raw) :: normLoop p t X := by
  by_cases hp : p
  · subst hp
    have hcl : trimSpace raw ≠ [')'] := fun hA => h7 ⟨hA, Or.inl rfl⟩
    simp [normLoop, h1, h2, h3, h4, h5, h6, hcl]
  · by_cases ht : t
    · subst ht
      simp only [Bool.not_eq_true] at hp
      subst hp
      have hcl : trimSpace raw ≠ [')'] := fun hA => h7 ⟨hA, Or.inr rfl⟩
      simp [normLoop, h1, h2, h3, h4, h5, h6, hcl]
    · simp only [Bool.not_eq_true] at hp ht
      subst hp
      subst ht
      simp [normLoop, h1, h2, h3, h4, h5, h6, h7]

theorem normLoop_idem (ls : List GoStr) :
    ∀ p t, normLoop p t (normLoop p t ls) = normLoop p t ls := by
  induction ls with
  | nil => intro p t; rfl
  | cons raw rest ih =>
    intro p t
    by_cases h1 : trimSpace raw = []
    · rw [normLoop_cons_blank p t raw rest h1,
        normLoop_cons_blank p t [] _ rfl, ih p t]
    · by_cases h2 : (gs "#").isPrefixOf (trimSpace raw) = true
      · rw [normLoop_cons_comment p t raw rest h1 h2,
          normLoop_cons_comment p t raw _ h1 h2, ih p t]
      · rw [Bool.not_eq_true] at h2
        have hidem : trimSpace (trimSpace raw) = trimSpace raw := trimSpace_idem raw
        by_cases h3 : (gs "nimsforest ").isPrefixOf (trimSpace raw) = true
        · rw [normLoop_cons_nims p t raw rest h1 h2 h3,
            normLoop_cons_nims p t (trimSpace raw) _ (by rw [hidem]; exact h1)
              (by rw [hidem]; exact h2) (by rw [hidem]; exact h3),
            hidem, ih p t]
        · rw [Bool.not_eq_true] at h3
          by_cases h4 : (gs "organization ").isPrefixOf (trimSpace raw) = true
          · rw [normLoop_cons_org p t raw rest h1 h2 h3 h4,
              normLoop_cons_org p t (trimSpace raw) _ (by rw [hidem]; exact h1)
                (by rw [hidem]; exact h2) (by rw [hidem]; exact h3)
                (by rw [hidem]; exact h4),
              hidem, ih p t]
          · rw [Bool.not_eq_true] at h4
            by_cases h5 : (gs "products ").isPrefixOf (trimSpace raw) = true
            · rw [normLoop_cons_products p t raw rest h1 h2 h3 h4 h5,
                normLoop_cons_products p t (gs "products (") _ (by decide)
                  (by decide) (by decide) (by decide) (by decide), ih true t]
            · rw [Bool.not_eq_true] at h5
              by_cases h6 : (gs "tools ").isPrefixOf (trimSpace raw) = true
              · rw [normLoop_cons_tools p t raw rest h1 h2 h3 h4 h5 h6,
                  normLoop_cons_tools p t (gs "tools (") _ (by decide) (by decide)
                    (by decide) (by decide) (by decide) (by decide), ih p true]
              · rw [Bool.not_eq_true] at h6
                by_cases h7 : trimSpace raw = [')'] ∧ (p ∨ t)
                · obtain ⟨h7a, h7b⟩ := h7
                  rw [normLoop_cons_close p t raw rest h7a h7b,
                    normLoop_cons_close p t [')'] _ rfl h7b, ih false false]
                · rw [normLoop_cons_rest p t raw rest h1 h2 h3 h4 h5 h6 h7]
                  by_cases hp : p = true
                  · subst hp
                    rw [if_pos rfl]
                    have hind : trimSpace (gs "    " ++ trimSpace raw) =
                        trimSpace raw := by rw [trimSpace_indent, hidem]
                    rw [normLoop_cons_rest true t (gs "    " ++ trimSpace raw) _
                        (by rw [hind]; exact h1) (by rw [hind]; exact h2)
                        (by rw [hind]; exact h3) (by rw [hind]; exact h4)
                        (by rw [hind]; exact h5) (by rw [hind]; exact h6)
                        (by rw [hind]; exact h7),
                      if_pos rfl, hind, ih true t]
                  · rw [Bool.not_eq_true] at hp
                    subst hp
                    rw [if_neg (by simp)]
                    by_cases ht : t = true
                    · subst ht
                      rw [if_pos rfl]
                      have hind : trimSpace (gs "    " ++ trimSpace raw) =
                          trimSpace raw := by rw [trimSpace_indent, hidem]
                      rw [normLoop_cons_rest false true (gs "    " ++ trimSpace raw)
                          _ (by rw [hind]; exact h1) (by rw [hind]; exact h2)
                          (by rw [hind]; exact h3) (by rw [hind]; exact h4)
                          (by rw [hind]; exact h5) (by rw [hind]; exact h6)
                          (by rw [hind]; exact h7),
                        if_neg (by simp), if_pos rfl, hind, ih false true]
                    · rw [Bool.not_eq_true] at ht
                      subst ht
                      rw [if_neg (by simp)]
                      rw [normLoop_cons_rest false false (trimSpace raw) _
                          (by rw [hidem]; exact h1) (by rw [hidem]; exact h2)
                          (by rw [hidem]; exact h3) (by rw [hidem]; exact h4)
                          (by rw [hidem]; exact h5) (by rw [hidem]; exact h6)
                          (by rw [hidem]; exact h7),
                        if_neg (by simp), if_neg (by simp), hidem, ih false false]

theorem normLoop_no_newline (ls : List GoStr) (h : ∀ l ∈ ls, '\n' ∉ l) :
    ∀ p t, ∀ l ∈ normLoop p t ls, '\n' ∉ l := by
  induction ls with
  | nil => intro p t l hl; cases hl
  | cons raw rest ih =>
    intro p t l hl
    have hraw : '\n' ∉ raw := h raw (List.mem_cons_self _ _)
    have hrest : ∀ x ∈ rest, '\n' ∉ x := fun x hx => h x (List.mem_cons_of_mem _ hx)
    have htrim : '\n' ∉ trimSpace raw := by
      intro hc
      unfold trimSpace at hc
      rw [List.mem_reverse] at hc
      have hc2 := (List.dropWhile_suffix isGoSpace).subset hc
      rw [List.mem_reverse] at hc2
      exact hraw ((List.dropWhile_suffix isGoSpace).subset hc2)
    simp only [normLoop] at hl
    split at hl
    · rcases List.mem_cons.mp hl with rfl | hl2
      · exact List.not_mem_nil _
      · exact ih hrest p t l hl2
    · split at hl
      · rcases List.mem_cons.mp hl with rfl | hl2
        · exact hraw
        · exact ih hrest p t l hl2
      · split at hl
        · rcases List.mem_cons.mp hl with rfl | hl2
          · exact htrim
          · exact ih hrest p t l hl2
        · split at hl
          · rcases List.mem_cons.mp hl with rfl | hl2
            · exact htrim
            · exact ih hrest p t l hl2
          · split at hl
            · rcases List.mem_cons.mp hl with rfl | hl2
              · decide
              · exact ih hrest true t l hl2
            · split at hl
              · rcases List.mem_cons.mp hl with rfl | hl2
                · decide
                · exact ih hrest p true l hl2
              · split at hl
                · rcases List.mem_cons.mp hl with rfl | hl2
                  · decide
                  · exact ih hrest false false l hl2
                · split at hl
                  · rcases List.mem_cons.mp hl with rfl | hl2
                    · intro hc
                      rcases List.mem_append.mp hc with hc2 | hc2
                      · simp [gs] at hc2
                      · exact htrim hc2
                    · exact ih hrest p t l hl2
                  · split at hl
                    · rcases List.mem_cons.mp hl with rfl | hl2
                      · intro hc
                        rcases List.mem_append.mp hc with hc2 | hc2
                        · simp [gs] at hc2
                        · exact htrim hc2
                      · exact ih hrest p t l hl2
                    · rcases List.mem_cons.mp hl with rfl | hl2
                      · exact htrim
                      · exact ih hrest p t l hl2

theorem normLoop_length (ls : List GoStr) :
    ∀ p t, (normLoop p t ls).length = ls.length := by
  induction ls with
  | nil => intro p t; rfl
  | cons raw rest ih =>
    intro p t
    simp only [normLoop]
    split
    · simp [ih p t]
    · split
      · simp [ih p t]
      · split
        · simp [ih p t]
        · split
          · simp [ih p t]
          · split
            · simp [ih true t]
            · split
              · simp [ih p true]
              · split
                · simp [ih false false]
                · split
                  · simp [ih p t]
                  · split
                    · simp [ih p t]
                    · simp [ih p t]

theorem splitNL_ne_nil (s : GoStr) : splitNL s ≠ [] := by
  cases s with
  | nil => simp [splitNL]
  | cons c cs =>
    rw [splitNL]
    split
    · simp
    · cases h : splitNL cs <;> simp

/-- C10: `NormalizeWorkspaceContent` is idempotent: normalizing already
normalized content changes nothing. -/
theorem c10_normalize_idempotent (s : GoStr) :
    normalizeWorkspaceContent (normalizeWorkspaceContent s) =
      normalizeWorkspaceContent s := by
  unfold normalizeWorkspaceContent
  rw [splitNL_joinNL (normLoop false false (splitNL s)) ?ne ?nl, normLoop_idem]
  case ne =>
    intro h0
    have hlen := normLoop_length (splitNL s) false false
    rw [h0] at hlen
    exact splitNL_ne_nil s (List.length_eq_zero.mp hlen.symm)
  case nl =>
    exact normLoop_no_newline (splitNL s) (mem_splitNL_no_newline s) false false

end NimsforestPM
